import Mathlib

/-!
Verification of the fecpp forward-error-correction codec (src/fecpp.cpp),
a systematic Reed-Solomon erasure code over GF(2^8) based on Vandermonde
matrices.  The definitions below are a shallow embedding of the C++ source:
bytes are `Nat` values below 256, byte buffers and row-major matrices are
`List Nat`, fallible operations return `Except Err`, and the two loops of
the source whose counters can wrap (they are declared `byte`) are modelled
with explicit fuel and explicit mod-256 counter arithmetic.
-/

set_option maxHeartbeats 2000000
set_option maxRecDepth 100000

namespace Fecpp

/-- Failure modes of the embedded code.  `invalidParameters`, `invalidIndex`,
`duplicateIndex`, `singularMatrix` and `badIndex` correspond to the throw
sites of the source; `oob` marks an out-of-bounds buffer access (undefined
behaviour in the C++); `fuel` marks a loop step beyond the supplied fuel. -/
inductive Err where
  | invalidParameters
  | invalidIndex
  | duplicateIndex
  | singularMatrix
  | badIndex
  | oob
  | fuel
deriving DecidableEq, Repr

/-- First half of the `GF_EXP` table of the source (entries 0..254). -/
def GF_EXP_A : List Nat := [
0x01, 0x02, 0x04, 0x08, 0x10, 0x20, 0x40, 0x80, 0x1D, 0x3A, 0x74,
0xE8, 0xCD, 0x87, 0x13, 0x26, 0x4C, 0x98, 0x2D, 0x5A, 0xB4, 0x75,
0xEA, 0xC9, 0x8F, 0x03, 0x06, 0x0C, 0x18, 0x30, 0x60, 0xC0, 0x9D,
0x27, 0x4E, 0x9C, 0x25, 0x4A, 0x94, 0x35, 0x6A, 0xD4, 0xB5, 0x77,
0xEE, 0xC1, 0x9F, 0x23, 0x46, 0x8C, 0x05, 0x0A, 0x14, 0x28, 0x50,
0xA0, 0x5D, 0xBA, 0x69, 0xD2, 0xB9, 0x6F, 0xDE, 0xA1, 0x5F, 0xBE,
0x61, 0xC2, 0x99, 0x2F, 0x5E, 0xBC, 0x65, 0xCA, 0x89, 0x0F, 0x1E,
0x3C, 0x78, 0xF0, 0xFD, 0xE7, 0xD3, 0xBB, 0x6B, 0xD6, 0xB1, 0x7F,
0xFE, 0xE1, 0xDF, 0xA3, 0x5B, 0xB6, 0x71, 0xE2, 0xD9, 0xAF, 0x43,
0x86, 0x11, 0x22, 0x44, 0x88, 0x0D, 0x1A, 0x34, 0x68, 0xD0, 0xBD,
0x67, 0xCE, 0x81, 0x1F, 0x3E, 0x7C, 0xF8, 0xED, 0xC7, 0x93, 0x3B,
0x76, 0xEC, 0xC5, 0x97, 0x33, 0x66, 0xCC, 0x85, 0x17, 0x2E, 0x5C,
0xB8, 0x6D, 0xDA, 0xA9, 0x4F, 0x9E, 0x21, 0x42, 0x84, 0x15, 0x2A,
0x54, 0xA8, 0x4D, 0x9A, 0x29, 0x52, 0xA4, 0x55, 0xAA, 0x49, 0x92,
0x39, 0x72, 0xE4, 0xD5, 0xB7, 0x73, 0xE6, 0xD1, 0xBF, 0x63, 0xC6,
0x91, 0x3F, 0x7E, 0xFC, 0xE5, 0xD7, 0xB3, 0x7B, 0xF6, 0xF1, 0xFF,
0xE3, 0xDB, 0xAB, 0x4B, 0x96, 0x31, 0x62, 0xC4, 0x95, 0x37, 0x6E,
0xDC, 0xA5, 0x57, 0xAE, 0x41, 0x82, 0x19, 0x32, 0x64, 0xC8, 0x8D,
0x07, 0x0E, 0x1C, 0x38, 0x70, 0xE0, 0xDD, 0xA7, 0x53, 0xA6, 0x51,
0xA2, 0x59, 0xB2, 0x79, 0xF2, 0xF9, 0xEF, 0xC3, 0x9B, 0x2B, 0x56,
0xAC, 0x45, 0x8A, 0x09, 0x12, 0x24, 0x48, 0x90, 0x3D, 0x7A, 0xF4,
0xF5, 0xF7, 0xF3, 0xFB, 0xEB, 0xCB, 0x8B, 0x0B, 0x16, 0x2C, 0x58,
0xB0, 0x7D, 0xFA, 0xE9, 0xCF, 0x83, 0x1B, 0x36, 0x6C, 0xD8, 0xAD,
0x47, 0x8E]

/-- Second half of the `GF_EXP` table of the source (entries 255..509);
the source duplicates the table so exponent sums need no reduction. -/
def GF_EXP_B : List Nat := [
0x01, 0x02, 0x04, 0x08, 0x10, 0x20, 0x40, 0x80, 0x1D, 0x3A, 0x74,
0xE8, 0xCD, 0x87, 0x13, 0x26, 0x4C, 0x98, 0x2D, 0x5A, 0xB4, 0x75,
0xEA, 0xC9, 0x8F, 0x03, 0x06, 0x0C, 0x18, 0x30, 0x60, 0xC0, 0x9D,
0x27, 0x4E, 0x9C, 0x25, 0x4A, 0x94, 0x35, 0x6A, 0xD4, 0xB5, 0x77,
0xEE, 0xC1, 0x9F, 0x23, 0x46, 0x8C, 0x05, 0x0A, 0x14, 0x28, 0x50,
0xA0, 0x5D, 0xBA, 0x69, 0xD2, 0xB9, 0x6F, 0xDE, 0xA1, 0x5F, 0xBE,
0x61, 0xC2, 0x99, 0x2F, 0x5E, 0xBC, 0x65, 0xCA, 0x89, 0x0F, 0x1E,
0x3C, 0x78, 0xF0, 0xFD, 0xE7, 0xD3, 0xBB, 0x6B, 0xD6, 0xB1, 0x7F,
0xFE, 0xE1, 0xDF, 0xA3, 0x5B, 0xB6, 0x71, 0xE2, 0xD9, 0xAF, 0x43,
0x86, 0x11, 0x22, 0x44, 0x88, 0x0D, 0x1A, 0x34, 0x68, 0xD0, 0xBD,
0x67, 0xCE, 0x81, 0x1F, 0x3E, 0x7C, 0xF8, 0xED, 0xC7, 0x93, 0x3B,
0x76, 0xEC, 0xC5, 0x97, 0x33, 0x66, 0xCC, 0x85, 0x17, 0x2E, 0x5C,
0xB8, 0x6D, 0xDA, 0xA9, 0x4F, 0x9E, 0x21, 0x42, 0x84, 0x15, 0x2A,
0x54, 0xA8, 0x4D, 0x9A, 0x29, 0x52, 0xA4, 0x55, 0xAA, 0x49, 0x92,
0x39, 0x72, 0xE4, 0xD5, 0xB7, 0x73, 0xE6, 0xD1, 0xBF, 0x63, 0xC6,
0x91, 0x3F, 0x7E, 0xFC, 0xE5, 0xD7, 0xB3, 0x7B, 0xF6, 0xF1, 0xFF,
0xE3, 0xDB, 0xAB, 0x4B, 0x96, 0x31, 0x62, 0xC4, 0x95, 0x37, 0x6E,
0xDC, 0xA5, 0x57, 0xAE, 0x41, 0x82, 0x19, 0x32, 0x64, 0xC8, 0x8D,
0x07, 0x0E, 0x1C, 0x38, 0x70, 0xE0, 0xDD, 0xA7, 0x53, 0xA6, 0x51,
0xA2, 0x59, 0xB2, 0x79, 0xF2, 0xF9, 0xEF, 0xC3, 0x9B, 0x2B, 0x56,
0xAC, 0x45, 0x8A, 0x09, 0x12, 0x24, 0x48, 0x90, 0x3D, 0x7A, 0xF4,
0xF5, 0xF7, 0xF3, 0xFB, 0xEB, 0xCB, 0x8B, 0x0B, 0x16, 0x2C, 0x58,
0xB0, 0x7D, 0xFA, 0xE9, 0xCF, 0x83, 0x1B, 0x36, 0x6C, 0xD8, 0xAD,
0x47, 0x8E]

/-- `GF_EXP` of the source: 510 bytes, the 255-entry table twice over. -/
def GF_EXP : List Nat := GF_EXP_A ++ GF_EXP_B

/-- The `GF_LOG` table of the source (`GF_LOG[0]` is the 0xFF sentinel). -/
def GF_LOG : List Nat := [
0xFF, 0x00, 0x01, 0x19, 0x02, 0x32, 0x1A, 0xC6, 0x03, 0xDF, 0x33,
0xEE, 0x1B, 0x68, 0xC7, 0x4B, 0x04, 0x64, 0xE0, 0x0E, 0x34, 0x8D,
0xEF, 0x81, 0x1C, 0xC1, 0x69, 0xF8, 0xC8, 0x08, 0x4C, 0x71, 0x05,
0x8A, 0x65, 0x2F, 0xE1, 0x24, 0x0F, 0x21, 0x35, 0x93, 0x8E, 0xDA,
0xF0, 0x12, 0x82, 0x45, 0x1D, 0xB5, 0xC2, 0x7D, 0x6A, 0x27, 0xF9,
0xB9, 0xC9, 0x9A, 0x09, 0x78, 0x4D, 0xE4, 0x72, 0xA6, 0x06, 0xBF,
0x8B, 0x62, 0x66, 0xDD, 0x30, 0xFD, 0xE2, 0x98, 0x25, 0xB3, 0x10,
0x91, 0x22, 0x88, 0x36, 0xD0, 0x94, 0xCE, 0x8F, 0x96, 0xDB, 0xBD,
0xF1, 0xD2, 0x13, 0x5C, 0x83, 0x38, 0x46, 0x40, 0x1E, 0x42, 0xB6,
0xA3, 0xC3, 0x48, 0x7E, 0x6E, 0x6B, 0x3A, 0x28, 0x54, 0xFA, 0x85,
0xBA, 0x3D, 0xCA, 0x5E, 0x9B, 0x9F, 0x0A, 0x15, 0x79, 0x2B, 0x4E,
0xD4, 0xE5, 0xAC, 0x73, 0xF3, 0xA7, 0x57, 0x07, 0x70, 0xC0, 0xF7,
0x8C, 0x80, 0x63, 0x0D, 0x67, 0x4A, 0xDE, 0xED, 0x31, 0xC5, 0xFE,
0x18, 0xE3, 0xA5, 0x99, 0x77, 0x26, 0xB8, 0xB4, 0x7C, 0x11, 0x44,
0x92, 0xD9, 0x23, 0x20, 0x89, 0x2E, 0x37, 0x3F, 0xD1, 0x5B, 0x95,
0xBC, 0xCF, 0xCD, 0x90, 0x87, 0x97, 0xB2, 0xDC, 0xFC, 0xBE, 0x61,
0xF2, 0x56, 0xD3, 0xAB, 0x14, 0x2A, 0x5D, 0x9E, 0x84, 0x3C, 0x39,
0x53, 0x47, 0x6D, 0x41, 0xA2, 0x1F, 0x2D, 0x43, 0xD8, 0xB7, 0x7B,
0xA4, 0x76, 0xC4, 0x17, 0x49, 0xEC, 0x7F, 0x0C, 0x6F, 0xF6, 0x6C,
0xA1, 0x3B, 0x52, 0x29, 0x9D, 0x55, 0xAA, 0xFB, 0x60, 0x86, 0xB1,
0xBB, 0xCC, 0x3E, 0x5A, 0xCB, 0x59, 0x5F, 0xB0, 0x9C, 0xA9, 0xA0,
0x51, 0x0B, 0xF5, 0x16, 0xEB, 0x7A, 0x75, 0x2C, 0xD7, 0x4F, 0xAE,
0xD5, 0xE9, 0xE6, 0xE7, 0xAD, 0xE8, 0x74, 0xD6, 0xF4, 0xEA, 0xA8,
0x50, 0x58, 0xAF]

/-- The `GF_INVERSE` table of the source (`GF_INVERSE[0] = 0` sentinel). -/
def GF_INVERSE : List Nat := [
0x00, 0x01, 0x8E, 0xF4, 0x47, 0xA7, 0x7A, 0xBA, 0xAD, 0x9D, 0xDD,
0x98, 0x3D, 0xAA, 0x5D, 0x96, 0xD8, 0x72, 0xC0, 0x58, 0xE0, 0x3E,
0x4C, 0x66, 0x90, 0xDE, 0x55, 0x80, 0xA0, 0x83, 0x4B, 0x2A, 0x6C,
0xED, 0x39, 0x51, 0x60, 0x56, 0x2C, 0x8A, 0x70, 0xD0, 0x1F, 0x4A,
0x26, 0x8B, 0x33, 0x6E, 0x48, 0x89, 0x6F, 0x2E, 0xA4, 0xC3, 0x40,
0x5E, 0x50, 0x22, 0xCF, 0xA9, 0xAB, 0x0C, 0x15, 0xE1, 0x36, 0x5F,
0xF8, 0xD5, 0x92, 0x4E, 0xA6, 0x04, 0x30, 0x88, 0x2B, 0x1E, 0x16,
0x67, 0x45, 0x93, 0x38, 0x23, 0x68, 0x8C, 0x81, 0x1A, 0x25, 0x61,
0x13, 0xC1, 0xCB, 0x63, 0x97, 0x0E, 0x37, 0x41, 0x24, 0x57, 0xCA,
0x5B, 0xB9, 0xC4, 0x17, 0x4D, 0x52, 0x8D, 0xEF, 0xB3, 0x20, 0xEC,
0x2F, 0x32, 0x28, 0xD1, 0x11, 0xD9, 0xE9, 0xFB, 0xDA, 0x79, 0xDB,
0x77, 0x06, 0xBB, 0x84, 0xCD, 0xFE, 0xFC, 0x1B, 0x54, 0xA1, 0x1D,
0x7C, 0xCC, 0xE4, 0xB0, 0x49, 0x31, 0x27, 0x2D, 0x53, 0x69, 0x02,
0xF5, 0x18, 0xDF, 0x44, 0x4F, 0x9B, 0xBC, 0x0F, 0x5C, 0x0B, 0xDC,
0xBD, 0x94, 0xAC, 0x09, 0xC7, 0xA2, 0x1C, 0x82, 0x9F, 0xC6, 0x34,
0xC2, 0x46, 0x05, 0xCE, 0x3B, 0x0D, 0x3C, 0x9C, 0x08, 0xBE, 0xB7,
0x87, 0xE5, 0xEE, 0x6B, 0xEB, 0xF2, 0xBF, 0xAF, 0xC5, 0x64, 0x07,
0x7B, 0x95, 0x9A, 0xAE, 0xB6, 0x12, 0x59, 0xA5, 0x35, 0x65, 0xB8,
0xA3, 0x9E, 0xD2, 0xF7, 0x62, 0x5A, 0x85, 0x7D, 0xA8, 0x3A, 0x29,
0x71, 0xC8, 0xF6, 0xF9, 0x43, 0xD7, 0xD6, 0x10, 0x73, 0x76, 0x78,
0x99, 0x0A, 0x19, 0x91, 0x14, 0x3F, 0xE6, 0xF0, 0x86, 0xB1, 0xE2,
0xF1, 0xFA, 0x74, 0xF3, 0xB4, 0x6D, 0x21, 0xB2, 0x6A, 0xE3, 0xE7,
0xB5, 0xEA, 0x03, 0x8F, 0xD3, 0xC9, 0x42, 0xD4, 0xE8, 0x75, 0x7F,
0xFF, 0x7E, 0xFD]

/-- Byte lookup into `GF_EXP`. -/
def gf_exp (i : Nat) : Nat := GF_EXP.getD i 0

/-- Byte lookup into `GF_LOG`. -/
def gf_log (i : Nat) : Nat := GF_LOG.getD i 0

/-- Byte lookup into `GF_INVERSE`. -/
def gf_inverse (i : Nat) : Nat := GF_INVERSE.getD i 0

/-- The multiplication table built by `init_mul_table`:
`gf_mul_table[i][j] = GF_EXP[(GF_LOG[i] + GF_LOG[j]) % 255]`, after which
row 0 and column 0 are overwritten with 0.  `gf_mul x y` is the table
lookup `gf_mul_table[x][y]`. -/
def gf_mul (a b : Nat) : Nat :=
  if a = 0 ∨ b = 0 then 0 else gf_exp ((gf_log a + gf_log b) % 255)

/-! ## The vector kernel `addmul` -/

/-- One assignment `dst[i] ^= gf_mul_table[c][src[i]]` of `addmul`. -/
def addmulAt (dst src : List Nat) (c i : Nat) : List Nat :=
  dst.set i ((dst.getD i 0) ^^^ gf_mul c (src.getD i 0))

/-- The sixteen assignments of the unrolled loop body of `addmul`,
in source order: `dst[0] ^= mul_base[src[0]]; ...; dst[15] ^= mul_base[src[15]]`
relative to the current offset. -/
def addmul16 (dst src : List Nat) (c off : Nat) : List Nat :=
  addmulAt (addmulAt (addmulAt (addmulAt
  (addmulAt (addmulAt (addmulAt (addmulAt
  (addmulAt (addmulAt (addmulAt (addmulAt
  (addmulAt (addmulAt (addmulAt (addmulAt
    dst src c off) src c (off+1)) src c (off+2)) src c (off+3))
    src c (off+4)) src c (off+5)) src c (off+6)) src c (off+7))
    src c (off+8)) src c (off+9)) src c (off+10)) src c (off+11))
    src c (off+12)) src c (off+13)) src c (off+14)) src c (off+15)

/-- The unrolled loop of `addmul`: `for(; dst < lim; dst += 16, src += 16)`
with `lim = &dst[sz - 16 + 1]`.  Over offsets this is `off < sz - 15`
(truncated subtraction agrees with the C pointer comparison since the loop
never runs when `sz < 16`).  Returns the buffer and the final offset. -/
def addmulUnrolled (dst src : List Nat) (c sz off : Nat) : List Nat × Nat :=
  if off < sz - 15 then
    addmulUnrolled (addmul16 dst src c off) src c sz (off + 16)
  else
    (dst, off)
termination_by sz - off
decreasing_by omega

/-- The tail loop of `addmul`: `lim += 16 - 1; for(; dst < lim; dst++, src++)`,
i.e. single assignments while `off < sz`. -/
def addmulTail (dst src : List Nat) (c sz off : Nat) : List Nat :=
  if off < sz then
    addmulTail (addmulAt dst src c off) src c sz (off + 1)
  else
    dst
termination_by sz - off
decreasing_by omega

/-- `addmul(dst, src, c, sz)` of the source: early return for `c = 0`,
otherwise the unrolled loop followed by the tail loop. -/
def addmul (dst src : List Nat) (c : Nat) (sz : Nat) : List Nat :=
  if c = 0 then dst
  else
    let u := addmulUnrolled dst src c sz 0
    addmulTail u.1 src c sz u.2

/-- `addmul_k(dst, srcs, cs, size, k)` of the source: fold `k` sources into
`dst`, skipping zero coefficients. -/
def addmul_k (dst : List Nat) (srcs : List (List Nat)) (cs : List Nat)
    (size k : Nat) : List Nat :=
  (List.range k).foldl (fun d i =>
    let c := cs.getD i 0
    if c = 0 then d
    else (List.range size).foldl
      (fun d2 j => d2.set j ((d2.getD j 0) ^^^ gf_mul c ((srcs.getD i []).getD j 0)))
      d) dst

/-- A run of consecutive `addmulAt` assignments starting at `lo`. -/
def addmulRange (dst src : List Nat) (c lo : Nat) : Nat → List Nat
  | 0 => dst
  | cnt + 1 => addmulRange (addmulAt dst src c lo) src c (lo + 1) cnt

theorem length_addmulAt (dst src : List Nat) (c i : Nat) :
    (addmulAt dst src c i).length = dst.length := by
  simp [addmulAt]

theorem getD_addmulAt_self (dst src : List Nat) (c i : Nat) (h : i < dst.length) :
    (addmulAt dst src c i).getD i 0 = (dst.getD i 0) ^^^ gf_mul c (src.getD i 0) := by
  simp [addmulAt, List.getD, List.getElem?_set_self, h]

theorem getD_addmulAt_ne (dst src : List Nat) (c : Nat) {i j : Nat} (h : i ≠ j) :
    (addmulAt dst src c i).getD j 0 = dst.getD j 0 := by
  simp [addmulAt, List.getD, List.getElem?_set_ne h]

theorem addmulAt_oob (dst src : List Nat) (c i : Nat) (h : dst.length ≤ i) :
    addmulAt dst src c i = dst := by
  simp [addmulAt, List.set_eq_of_length_le h]

theorem length_addmulRange (dst src : List Nat) (c lo cnt : Nat) :
    (addmulRange dst src c lo cnt).length = dst.length := by
  induction cnt generalizing dst lo with
  | zero => rfl
  | succ n ih => simp [addmulRange, ih, length_addmulAt]

theorem getD_addmulRange (dst src : List Nat) (c lo cnt : Nat) (i : Nat) :
    (addmulRange dst src c lo cnt).getD i 0 =
      if lo ≤ i ∧ i < lo + cnt ∧ i < dst.length then
        (dst.getD i 0) ^^^ gf_mul c (src.getD i 0)
      else dst.getD i 0 := by
  induction cnt generalizing dst lo with
  | zero =>
    show dst.getD i 0 = _
    rw [if_neg (by omega : ¬ (lo ≤ i ∧ i < lo + 0 ∧ i < dst.length))]
  | succ n ih =>
    show (addmulRange (addmulAt dst src c lo) src c (lo+1) n).getD i 0 = _
    rw [ih]
    by_cases hil : i = lo
    · subst hil
      by_cases hlen : i < dst.length
      · have hcond : ¬ (i + 1 ≤ i ∧ i < i + 1 + n ∧ i < (addmulAt dst src c i).length) := by
          omega
        have hcond2 : i ≤ i ∧ i < i + (n+1) ∧ i < dst.length := by omega
        simp only [hcond, if_neg, hcond2, if_pos]
        exact getD_addmulAt_self dst src c i hlen
      · rw [addmulAt_oob dst src c i (by omega)]
        have hcond : ¬ (i + 1 ≤ i ∧ i < i + 1 + n ∧ i < dst.length) := by omega
        have hcond2 : ¬ (i ≤ i ∧ i < i + (n+1) ∧ i < dst.length) := by omega
        simp [hcond, hcond2, hlen]
    · rw [getD_addmulAt_ne dst src c (fun h => hil (h.symm))]
      rw [length_addmulAt]
      by_cases hr : lo + 1 ≤ i ∧ i < lo + 1 + n ∧ i < dst.length
      · have : lo ≤ i ∧ i < lo + (n+1) ∧ i < dst.length := by omega
        simp [hr, this]
      · have : ¬ (lo ≤ i ∧ i < lo + (n+1) ∧ i < dst.length) := by omega
        simp [hr, this]

theorem addmul16_eq_range (dst src : List Nat) (c off : Nat) :
    addmul16 dst src c off = addmulRange dst src c off 16 := rfl

theorem addmulRange_append (dst src : List Nat) (c lo a b : Nat) :
    addmulRange (addmulRange dst src c lo a) src c (lo + a) b =
      addmulRange dst src c lo (a + b) := by
  induction a generalizing dst lo with
  | zero => simp [addmulRange]
  | succ n ih =>
    show addmulRange (addmulRange (addmulAt dst src c lo) src c (lo+1) n) src c (lo + (n+1)) b = _
    have h : lo + (n + 1) = (lo + 1) + n := by omega
    have h2 : n + 1 + b = (n + b) + 1 := by omega
    rw [h, ih, h2]
    rfl

theorem addmulTail_eq_range (src : List Nat) (c sz : Nat) :
    ∀ (m dst : List Nat) (off : Nat), sz - off ≤ m.length →
      addmulTail dst src c sz off = addmulRange dst src c off (sz - off)
  | m, dst, off, hm => by
    rw [addmulTail]
    by_cases h : off < sz
    · cases m with
      | nil => simp only [List.length_nil] at hm; omega
      | cons x xs =>
        rw [if_pos h]
        rw [addmulTail_eq_range src c sz xs (addmulAt dst src c off) (off+1) (by simp at hm ⊢; omega)]
        have h1 : sz - off = (sz - (off + 1)) + 1 := by omega
        rw [h1]
        rfl
    · rw [if_neg h]
      have h1 : sz - off = 0 := by omega
      rw [h1]
      rfl

theorem addmulUnrolled_spec (src : List Nat) (c sz : Nat) :
    ∀ (m dst : List Nat) (off : Nat), sz - off ≤ m.length →
      ∃ fin : Nat,
        addmulUnrolled dst src c sz off = (addmulRange dst src c off (fin - off), fin)
          ∧ off ≤ fin ∧ fin ≤ max off sz ∧ ¬ fin < sz - 15
  | m, dst, off, hm => by
    rw [addmulUnrolled]
    by_cases h : off < sz - 15
    · cases m with
      | nil => simp only [List.length_nil] at hm; omega
      | cons x xs =>
        rw [if_pos h]
        obtain ⟨fin, heq, h1, h2, h3⟩ :=
          addmulUnrolled_spec src c sz xs (addmul16 dst src c off) (off+16)
            (by simp at hm ⊢; omega)
        refine ⟨fin, ?_, by omega, by omega, h3⟩
        rw [heq, addmul16_eq_range]
        have h5 : addmulRange (addmulRange dst src c off 16) src c (off + 16) (fin - (off+16)) =
            addmulRange dst src c off (16 + (fin - (off + 16))) := addmulRange_append dst src c off 16 _
        rw [h5]
        have h6 : 16 + (fin - (off + 16)) = fin - off := by omega
        rw [h6]
    · rw [if_neg h]
      exact ⟨off, by simp [addmulRange], le_refl off, by omega, h⟩

theorem addmul_eq_range (dst src : List Nat) (c sz : Nat) (hc : c ≠ 0) :
    addmul dst src c sz = addmulRange dst src c 0 sz := by
  rw [addmul, if_neg hc]
  obtain ⟨fin, heq, h1, h2, h3⟩ :=
    addmulUnrolled_spec src c sz (List.replicate sz 0) dst 0 (by simp)
  rw [heq]
  show addmulTail (addmulRange dst src c 0 (fin - 0)) src c sz fin = _
  rw [addmulTail_eq_range src c sz (List.replicate sz 0) _ fin (by simp)]
  have hfin : fin ≤ sz ∨ (fin = 0 ∧ sz ≤ 15) := by omega
  rcases hfin with hf | ⟨hf0, hfs⟩
  · have hz : fin - 0 = fin := by omega
    have h5 := addmulRange_append dst src c 0 fin (sz - fin)
    simp only [Nat.zero_add] at h5
    rw [hz, h5]
    congr 1
    omega
  · subst hf0
    show addmulRange (addmulRange dst src c 0 0) src c 0 (sz - 0) = _
    simp [addmulRange]

/-- Specification-level `addmul`: per-index `dst[i] ← dst[i] ⊕ c·src[i]`
for `i ∈ [0, sz)`, everything else untouched. -/
def addmulSpec (dst src : List Nat) (c sz : Nat) : List Nat :=
  dst.mapIdx (fun i v => if i < sz then v ^^^ gf_mul c (src.getD i 0) else v)

/-- C5: for every coefficient `c`, length `sz ≥ 0` and buffers of at least
`sz` bytes, `addmul(dst, src, c, sz)` sets `dst[i]` to
`dst[i] XOR (c · src[i] in GF(2^8))` for every `i ∈ [0, sz)` and modifies no
other byte; for `c = 0` the buffer is returned entirely unchanged.  The
16-way unrolled loop plus tail loop realize exactly this per-index contract
for every `sz`, including `sz < 16`. -/
theorem addmul_contract (dst src : List Nat) (c sz : Nat)
    (hdst : sz ≤ dst.length) :
    (addmul dst src c sz).length = dst.length
      ∧ (∀ i, i < sz → (addmul dst src c sz).getD i 0
            = (dst.getD i 0) ^^^ gf_mul c (src.getD i 0))
      ∧ (∀ i, sz ≤ i → (addmul dst src c sz).getD i 0 = dst.getD i 0)
      ∧ addmul dst src 0 sz = dst := by
  have hzero : addmul dst src 0 sz = dst := by simp [addmul]
  by_cases hc : c = 0
  · subst hc
    refine ⟨by rw [hzero], ?_, ?_, hzero⟩
    · intro i _
      rw [hzero]
      have : gf_mul 0 (src.getD i 0) = 0 := by simp [gf_mul]
      rw [this, Nat.xor_zero]
    · intro i _
      rw [hzero]
  · rw [addmul_eq_range dst src c sz hc]
    refine ⟨length_addmulRange dst src c 0 sz, ?_, ?_, hzero⟩
    · intro i hi
      rw [getD_addmulRange]
      rw [if_pos ⟨Nat.zero_le i, by omega, by omega⟩]
    · intro i hi
      rw [getD_addmulRange]
      rw [if_neg (by omega)]

/-- Witness for C5 at a concrete input (`sz = 3 < 16` exercises the tail
path; the hypotheses hold by computation). -/
theorem addmul_contract_witness :
    (addmul [1, 2, 3] [4, 5, 6] 2 3).length = 3
      ∧ (∀ i, i < 3 → (addmul [1, 2, 3] [4, 5, 6] 2 3).getD i 0
            = ([1, 2, 3].getD i 0) ^^^ gf_mul 2 ([4, 5, 6].getD i 0))
      ∧ (∀ i, 3 ≤ i → (addmul [1, 2, 3] [4, 5, 6] 2 3).getD i 0 = [1, 2, 3].getD i 0)
      ∧ addmul [1, 2, 3] [4, 5, 6] 0 3 = [1, 2, 3] :=
  addmul_contract [1, 2, 3] [4, 5, 6] 2 3 (by decide)

/-! ## The `shuffle` step of decode -/

/-- `std::swap` of elements `i` and `j` of a list. -/
def swapL {α : Type} [Inhabited α] (l : List α) (i j : Nat) : List α :=
  (l.set i (l.getD j default)).set j (l.getD i default)

theorem length_swapL {α : Type} [Inhabited α] (l : List α) (i j : Nat) :
    (swapL l i j).length = l.length := by simp [swapL]

theorem getD_swapL {α : Type} [Inhabited α] (l : List α) {i j : Nat} (p : Nat) (d : α)
    (hi : i < l.length) (hj : j < l.length) (hij : i ≠ j) :
    (swapL l i j).getD p d =
      if p = j then l.getD i d
      else if p = i then l.getD j d
      else l.getD p d := by
  have hgi : l.getD i default = l.getD i d := by
    rw [List.getD_eq_getElem?_getD, List.getD_eq_getElem?_getD, List.getElem?_eq_getElem hi]
    rfl
  have hgj : l.getD j default = l.getD j d := by
    rw [List.getD_eq_getElem?_getD, List.getD_eq_getElem?_getD, List.getElem?_eq_getElem hj]
    rfl
  unfold swapL
  by_cases hpj : p = j
  · subst hpj
    rw [if_pos rfl, ← hgi, List.getD_eq_getElem?_getD,
      List.getElem?_set_self (by simpa using hj)]
    rfl
  · by_cases hpi : p = i
    · subst hpi
      rw [if_neg hpj, if_pos rfl, ← hgj, List.getD_eq_getElem?_getD,
        List.getElem?_set_ne (fun h => hpj h.symm), List.getElem?_set_self hi]
      rfl
    · rw [if_neg hpj, if_neg hpi, List.getD_eq_getElem?_getD,
        List.getElem?_set_ne (fun h => hpj h.symm), List.getElem?_set_ne (fun h => hpi h.symm),
        List.getD_eq_getElem?_getD]

/-- The `shuffle` loop of the source (`for(size_t i = 0; i < k;)`), with
explicit fuel (one unit per loop iteration) and a count of the swaps
performed.  `some (true, ..)` is the `return 1` exit (conflicting shards),
`some (false, ..)` the `return 0` exit. -/
def shuffleAux (k : Nat) : Nat → Nat → List Nat → List (List Nat) →
    Option (Bool × List Nat × List (List Nat) × Nat)
  | 0, _, _, _ => none
  | fuel + 1, i, idx, pkt =>
    if i < k then
      if idx.getD i 0 ≥ k ∨ idx.getD i 0 = i then
        shuffleAux k fuel (i + 1) idx pkt
      else
        let c := idx.getD i 0
        if idx.getD c 0 = c then some (true, idx, pkt, 0)
        else
          match shuffleAux k fuel i (swapL idx i c) (swapL pkt i c) with
          | none => none
          | some (e, idx2, pkt2, s) => some (e, idx2, pkt2, s + 1)
    else some (false, idx, pkt, 0)

/-- `shuffle(pkt, index, k)` of the source. -/
def shuffle (k fuel : Nat) (idx : List Nat) (pkt : List (List Nat)) :
    Option (Bool × List Nat × List (List Nat) × Nat) :=
  shuffleAux k fuel 0 idx pkt

/-- Number of positions `j < k` already holding their own index. -/
def fixedCount (k : Nat) (idx : List Nat) : Nat :=
  ((Finset.range k).filter (fun j => idx.getD j 0 = j)).card

theorem fixedCount_le (k : Nat) (idx : List Nat) : fixedCount k idx ≤ k := by
  calc ((Finset.range k).filter (fun j => idx.getD j 0 = j)).card
      ≤ (Finset.range k).card := Finset.card_le_card (Finset.filter_subset _ _)
    _ = k := Finset.card_range k

/-- A swap of the shuffle loop strictly increases the number of fixed
positions: position `c` becomes fixed and no fixed position is disturbed. -/
theorem fixedCount_swap_lt (k : Nat) (idx : List Nat) (i : Nat)
    (hlen : idx.length = k) (hik : i < k)
    (hc : idx.getD i 0 < k) (hci : idx.getD i 0 ≠ i)
    (hcc : idx.getD (idx.getD i 0) 0 ≠ idx.getD i 0) :
    fixedCount k idx < fixedCount k (swapL idx i (idx.getD i 0)) := by
  set c := idx.getD i 0 with hcdef
  apply Finset.card_lt_card
  constructor
  · intro j hj
    simp only [Finset.mem_filter, Finset.mem_range] at hj ⊢
    obtain ⟨hjk, hjfix⟩ := hj
    refine ⟨hjk, ?_⟩
    rw [getD_swapL idx j 0 (by omega) (by omega) (fun h => hci h.symm)]
    have hjc : j ≠ c := fun h => hcc (h ▸ hjfix)
    have hji : j ≠ i := by intro h; subst h; exact hci hjfix
    rw [if_neg hjc, if_neg hji]
    exact hjfix
  · intro hsub
    have hcmem : c ∈ (Finset.range k).filter
        (fun j => (swapL idx i c).getD j 0 = j) := by
      simp only [Finset.mem_filter, Finset.mem_range]
      refine ⟨hc, ?_⟩
      rw [getD_swapL idx c 0 (by omega) (by omega) (fun h => hci h.symm)]
      rw [if_pos rfl]
    have := hsub hcmem
    simp only [Finset.mem_filter, Finset.mem_range] at this
    exact hcc this.2

/-- C10 core: with fuel exceeding the measure `(k - i) + (k - fixedCount)`,
the shuffle loop returns. -/
theorem shuffleAux_terminates (k : Nat) :
    ∀ (fuel i : Nat) (idx : List Nat) (pkt : List (List Nat)),
      idx.length = k → i ≤ k →
      (k - i) + (k - fixedCount k idx) < fuel →
      (shuffleAux k fuel i idx pkt).isSome := by
  intro fuel
  induction fuel with
  | zero => intro i idx pkt _ _ h; omega
  | succ fuel ih =>
    intro i idx pkt hlen hik hf
    rw [shuffleAux]
    by_cases hi : i < k
    · rw [if_pos hi]
      by_cases hadv : idx.getD i 0 ≥ k ∨ idx.getD i 0 = i
      · rw [if_pos hadv]
        exact ih (i+1) idx pkt hlen (by omega) (by omega)
      · rw [if_neg hadv]
        push_neg at hadv
        obtain ⟨hck, hci⟩ := hadv
        by_cases hcc : idx.getD (idx.getD i 0) 0 = idx.getD i 0
        · rw [if_pos hcc]; simp
        · rw [if_neg hcc]
          have hlt := fixedCount_swap_lt k idx i hlen hi hck hci hcc
          have hle := fixedCount_le k (swapL idx i (idx.getD i 0))
          have hrec := ih i (swapL idx i (idx.getD i 0)) (swapL pkt i (idx.getD i 0))
            (by rw [length_swapL, hlen]) (by omega) (by omega)
          match hm : shuffleAux k fuel i (swapL idx i (idx.getD i 0))
              (swapL pkt i (idx.getD i 0)) with
          | none => rw [hm] at hrec; simp at hrec
          | some (e, idx2, pkt2, s) => simp
    · rw [if_neg hi]; simp

theorem shuffleAux_swaps_le (k : Nat) :
    ∀ (fuel i : Nat) (idx : List Nat) (pkt : List (List Nat))
      (e : Bool) (idx2 : List Nat) (pkt2 : List (List Nat)) (s : Nat),
      idx.length = k →
      shuffleAux k fuel i idx pkt = some (e, idx2, pkt2, s) →
      s + fixedCount k idx ≤ k := by
  intro fuel
  induction fuel with
  | zero =>
    intro i idx pkt e idx2 pkt2 s hlen heq
    simp [shuffleAux] at heq
  | succ fuel ih =>
    intro i idx pkt e idx2 pkt2 s hlen heq
    have hfb := fixedCount_le k idx
    rw [shuffleAux] at heq
    by_cases hi : i < k
    · rw [if_pos hi] at heq
      by_cases hadv : idx.getD i 0 ≥ k ∨ idx.getD i 0 = i
      · rw [if_pos hadv] at heq
        exact ih (i+1) idx pkt e idx2 pkt2 s hlen heq
      · rw [if_neg hadv] at heq
        push_neg at hadv
        obtain ⟨hck, hci⟩ := hadv
        by_cases hcc : idx.getD (idx.getD i 0) 0 = idx.getD i 0
        · rw [if_pos hcc] at heq
          simp at heq
          omega
        · rw [if_neg hcc] at heq
          cases hm : shuffleAux k fuel i (swapL idx i (idx.getD i 0))
              (swapL pkt i (idx.getD i 0)) with
          | none => rw [hm] at heq; simp at heq
          | some r =>
            obtain ⟨e1, idx1, pkt1, s1⟩ := r
            rw [hm] at heq
            simp at heq
            obtain ⟨he, hidx, hpkt, hs⟩ := heq
            have hrec := ih i _ _ e1 idx1 pkt1 s1 (by rw [length_swapL, hlen]) hm
            have hlt := fixedCount_swap_lt k idx i hlen hi hck hci hcc
            have hub := fixedCount_le k (swapL idx i (idx.getD i 0))
            omega
    · rw [if_neg hi] at heq
      simp at heq
      omega

/-- After a successful shuffle every position holds either a parity index
(`≥ k`) or its own position. -/
theorem shuffleAux_post (k : Nat) :
    ∀ (fuel i : Nat) (idx : List Nat) (pkt : List (List Nat))
      (idx2 : List Nat) (pkt2 : List (List Nat)) (s : Nat),
      idx.length = k → i ≤ k →
      (∀ j, j < i → k ≤ idx.getD j 0 ∨ idx.getD j 0 = j) →
      shuffleAux k fuel i idx pkt = some (false, idx2, pkt2, s) →
      ∀ j, j < k → k ≤ idx2.getD j 0 ∨ idx2.getD j 0 = j := by
  intro fuel
  induction fuel with
  | zero =>
    intro i idx pkt idx2 pkt2 s _ _ _ heq
    simp [shuffleAux] at heq
  | succ fuel ih =>
    intro i idx pkt idx2 pkt2 s hlen hik hinv heq
    rw [shuffleAux] at heq
    by_cases hi : i < k
    · rw [if_pos hi] at heq
      by_cases hadv : idx.getD i 0 ≥ k ∨ idx.getD i 0 = i
      · rw [if_pos hadv] at heq
        refine ih (i+1) idx pkt idx2 pkt2 s hlen (by omega) ?_ heq
        intro j hj
        by_cases hji : j = i
        · subst hji
          rcases hadv with h | h
          · exact Or.inl h
          · exact Or.inr h
        · exact hinv j (by omega)
      · rw [if_neg hadv] at heq
        push_neg at hadv
        obtain ⟨hck, hci⟩ := hadv
        by_cases hcc : idx.getD (idx.getD i 0) 0 = idx.getD i 0
        · rw [if_pos hcc] at heq
          simp at heq
        · rw [if_neg hcc] at heq
          cases hm : shuffleAux k fuel i (swapL idx i (idx.getD i 0))
              (swapL pkt i (idx.getD i 0)) with
          | none => rw [hm] at heq; simp at heq
          | some r =>
            obtain ⟨e1, idx1, pkt1, s1⟩ := r
            rw [hm] at heq
            simp at heq
            obtain ⟨he, hidx, hpkt, hs⟩ := heq
            subst he hidx hpkt
            refine ih i _ _ idx1 pkt1 s1 (by rw [length_swapL, hlen]) hik ?_ hm
            intro j hj
            rw [getD_swapL idx j 0 (by omega) (by omega) (fun h => hci h.symm)]
            by_cases hjc : j = idx.getD i 0
            · rw [if_pos hjc]
              exact Or.inr hjc.symm
            · rw [if_neg hjc, if_neg (by omega : ¬ j = i)]
              exact hinv j hj
    · rw [if_neg hi] at heq
      simp at heq
      obtain ⟨hidx, hpkt, hs⟩ := heq
      subst hidx
      intro j hj
      exact hinv j (by omega)

/-- Transporting a position through the transposition `(i c)` used by a
shuffle swap. -/
theorem swapFn_getD (idx : List Nat) {i c : Nat} (p : Nat)
    (hi : i < idx.length) (hc : c < idx.length) (hic : i ≠ c) :
    (swapL idx i c).getD (if p = i then c else if p = c then i else p) 0 =
      idx.getD p 0 := by
  by_cases hpi : p = i
  · subst hpi
    rw [if_pos rfl, getD_swapL idx c 0 hi hc hic, if_pos rfl]
  · by_cases hpc : p = c
    · subst hpc
      rw [if_neg hpi, if_pos rfl, getD_swapL idx i 0 hi hc hic,
        if_neg hic, if_pos rfl]
    · rw [if_neg hpi, if_neg hpc, getD_swapL idx p 0 hi hc hic,
        if_neg hpc, if_neg hpi]

/-- The transposition `(i c)` is injective. -/
theorem swapFn_inj {i c p q : Nat} (_hic : i ≠ c)
    (h : (if p = i then c else if p = c then i else p)
       = (if q = i then c else if q = c then i else q)) : p = q := by
  split_ifs at h <;> omega

/-- A duplicated value below `k` survives every shuffle step: if the loop
returns success, the final index array still holds that value at two
distinct positions below `k`. -/
theorem shuffleAux_dup (k v : Nat) :
    ∀ (fuel i : Nat) (idx : List Nat) (pkt : List (List Nat))
      (idx2 : List Nat) (pkt2 : List (List Nat)) (s : Nat),
      idx.length = k →
      (∃ p q, p < k ∧ q < k ∧ p ≠ q ∧ idx.getD p 0 = v ∧ idx.getD q 0 = v) →
      shuffleAux k fuel i idx pkt = some (false, idx2, pkt2, s) →
      ∃ p q, p < k ∧ q < k ∧ p ≠ q ∧ idx2.getD p 0 = v ∧ idx2.getD q 0 = v := by
  intro fuel
  induction fuel with
  | zero =>
    intro i idx pkt idx2 pkt2 s _ _ heq
    simp [shuffleAux] at heq
  | succ fuel ih =>
    intro i idx pkt idx2 pkt2 s hlen hdup heq
    rw [shuffleAux] at heq
    by_cases hi : i < k
    · rw [if_pos hi] at heq
      by_cases hadv : idx.getD i 0 ≥ k ∨ idx.getD i 0 = i
      · rw [if_pos hadv] at heq
        exact ih (i+1) idx pkt idx2 pkt2 s hlen hdup heq
      · rw [if_neg hadv] at heq
        push_neg at hadv
        obtain ⟨hck, hci⟩ := hadv
        by_cases hcc : idx.getD (idx.getD i 0) 0 = idx.getD i 0
        · rw [if_pos hcc] at heq
          simp at heq
        · rw [if_neg hcc] at heq
          cases hm : shuffleAux k fuel i (swapL idx i (idx.getD i 0))
              (swapL pkt i (idx.getD i 0)) with
          | none => rw [hm] at heq; simp at heq
          | some r =>
            obtain ⟨e1, idx1, pkt1, s1⟩ := r
            rw [hm] at heq
            simp at heq
            obtain ⟨he, hidx, hpkt, hs⟩ := heq
            subst he hidx hpkt
            obtain ⟨p, q, hp, hq, hpq, hvp, hvq⟩ := hdup
            refine ih i _ _ idx1 pkt1 s1 (by rw [length_swapL, hlen]) ?_ hm
            have hicne : i ≠ idx.getD i 0 := fun h => hci h.symm
            refine ⟨if p = i then idx.getD i 0 else if p = idx.getD i 0 then i else p,
                    if q = i then idx.getD i 0 else if q = idx.getD i 0 then i else q,
                    ?_, ?_, ?_, ?_, ?_⟩
            · split_ifs <;> omega
            · split_ifs <;> omega
            · intro h
              exact hpq (swapFn_inj hicne h)
            · rw [swapFn_getD idx p (by omega) (by omega) hicne]
              exact hvp
            · rw [swapFn_getD idx q (by omega) (by omega) hicne]
              exact hvq
    · rw [if_neg hi] at heq
      simp at heq
      obtain ⟨hidx, hpkt, hs⟩ := heq
      subst hidx
      exact hdup

/-- Shuffle preserves the lengths of both arrays. -/
theorem shuffleAux_length (k : Nat) :
    ∀ (fuel i : Nat) (idx : List Nat) (pkt : List (List Nat))
      (e : Bool) (idx2 : List Nat) (pkt2 : List (List Nat)) (s : Nat),
      shuffleAux k fuel i idx pkt = some (e, idx2, pkt2, s) →
      idx2.length = idx.length ∧ pkt2.length = pkt.length := by
  intro fuel
  induction fuel with
  | zero =>
    intro i idx pkt e idx2 pkt2 s heq
    simp [shuffleAux] at heq
  | succ fuel ih =>
    intro i idx pkt e idx2 pkt2 s heq
    rw [shuffleAux] at heq
    by_cases hi : i < k
    · rw [if_pos hi] at heq
      by_cases hadv : idx.getD i 0 ≥ k ∨ idx.getD i 0 = i
      · rw [if_pos hadv] at heq
        exact ih (i+1) idx pkt e idx2 pkt2 s heq
      · rw [if_neg hadv] at heq
        by_cases hcc : idx.getD (idx.getD i 0) 0 = idx.getD i 0
        · rw [if_pos hcc] at heq
          injection heq with h
          injection h with h1 h
          injection h with h2 h
          injection h with h3 h4
          rw [← h2, ← h3]
          exact ⟨rfl, rfl⟩
        · rw [if_neg hcc] at heq
          cases hm : shuffleAux k fuel i (swapL idx i (idx.getD i 0))
              (swapL pkt i (idx.getD i 0)) with
          | none => rw [hm] at heq; simp at heq
          | some r =>
            obtain ⟨e1, idx1, pkt1, s1⟩ := r
            rw [hm] at heq
            simp at heq
            obtain ⟨he, hidx, hpkt, hs⟩ := heq
            subst hidx hpkt
            have := ih i _ _ e1 idx1 pkt1 s1 hm
            rw [length_swapL, length_swapL] at this
            exact this
    · rw [if_neg hi] at heq
      injection heq with h
      injection h with h1 h
      injection h with h2 h
      injection h with h3 h4
      rw [← h2, ← h3]
      exact ⟨rfl, rfl⟩

/-- C10: for every `k` and arbitrary array contents the shuffle loop
terminates within fuel `2k + 2` (each step either advances `i` or fixes a
new position), performing at most `k` swaps. -/
theorem shuffle_terminates_and_swaps_bounded (k : Nat) (idx : List Nat)
    (pkt : List (List Nat)) (hlen : idx.length = k) :
    (shuffle k (2*k + 2) idx pkt).isSome
      ∧ ∀ e idx2 pkt2 s, shuffle k (2*k + 2) idx pkt = some (e, idx2, pkt2, s) →
          s ≤ k := by
  constructor
  · exact shuffleAux_terminates k (2*k+2) 0 idx pkt hlen (by omega)
      (by have := fixedCount_le k idx; omega)
  · intro e idx2 pkt2 s heq
    have := shuffleAux_swaps_le k (2*k+2) 0 idx pkt e idx2 pkt2 s hlen heq
    omega

/-- Witness for C10 at a concrete input. -/
theorem shuffle_terminates_and_swaps_bounded_witness :
    (shuffle 3 (2*3 + 2) [2, 0, 1] [[10], [20], [30]]).isSome
      ∧ ∀ e idx2 pkt2 s,
          shuffle 3 (2*3 + 2) [2, 0, 1] [[10], [20], [30]] = some (e, idx2, pkt2, s) →
          s ≤ 3 :=
  shuffle_terminates_and_swaps_bounded 3 [2, 0, 1] [[10], [20], [30]] (by decide)

/-! ## Matrix engine and codec construction -/

/-- `matmul(a, b, c, n, k, m)` of the source: `C = A·B` with `A` of shape
`n×k`, `B` of shape `k×m`, result `n×m`, all row-major, XOR-accumulating
products. -/
def matmul (a b : List Nat) (n k m : Nat) : List Nat :=
  ((List.range n).map (fun row =>
    (List.range m).map (fun col =>
      (List.range k).foldl
        (fun acc i => acc ^^^ gf_mul (a.getD (row*k + i) 0) (b.getD (i*m + col) 0))
        0))).flatten

/-- `invert_vdm(src, k)` of the source: specialised inversion of a
Vandermonde matrix given by the evaluation points in column 1.  For `k = 1`
it returns immediately, leaving the matrix unchanged.  Otherwise it builds
the coefficients of `P(x) = Π (x - p_i)`, then per row runs the synthetic
division and writes row `row` of the inverse into column `row`.  Only the
top `k×k` entries of `src` are read or written. -/
def invert_vdm (src : List Nat) (k : Nat) : List Nat :=
  if k = 1 then src
  else
    let p := (List.range k).map (fun i => src.getD (i*k + 1) 0)
    let c1 := (List.replicate k 0).set (k-1) (p.getD 0 0)
    let c := (List.range (k-1)).foldl (fun cc im1 =>
      let i := im1 + 1
      let p_i := p.getD i 0
      let cc2 := (List.range (i-1)).foldl (fun cc3 t =>
          let j := (k - i) + t
          cc3.set j ((cc3.getD j 0) ^^^ gf_mul p_i (cc3.getD (j+1) 0))) cc
      cc2.set (k-1) ((cc2.getD (k-1) 0) ^^^ p_i)) c1
    (List.range k).foldl (fun m row =>
      let xx := p.getD row 0
      let bt := (List.range (k-1)).foldl (fun (st : List Nat × Nat) i0 =>
          let i := k - 2 - i0
          let b2 := st.1.set i ((c.getD (i+1) 0) ^^^ gf_mul xx (st.1.getD (i+1) 0))
          (b2, gf_mul xx st.2 ^^^ b2.getD i 0))
        ((List.replicate k 0).set (k-1) 1, 1)
      (List.range k).foldl (fun m2 col =>
        m2.set (col*k + row) (gf_mul (gf_inverse bt.2) (bt.1.getD col 0))) m) src

/-- A bounds-checked write: `m[i] = v` on a `std::vector` is undefined
behaviour when `i` is out of range, modelled as the `oob` error. -/
def setChecked (m : List Nat) (i v : Nat) : Except Err (List Nat) :=
  if i < m.length then .ok (m.set i v) else .error .oob

/-- The Vandermonde fill loop of the constructor,
`for(byte* p = &tmp_m[k], row = 0; row < n-1; row++, p += k)`.
Its counter `row` is a `byte` (second declarator of
`byte* p = ..., row = 0`), so it wraps at 256; the embedding keeps the
mod-256 counter, the running row offset `pos`, and fuel per iteration. -/
def vdmFill (k n : Nat) : Nat → Nat → Nat → List Nat → Except Err (List Nat)
  | 0, _, _, _ => .error .fuel
  | fuel + 1, row, pos, m =>
    if row < n - 1 then
      vdmFill k n fuel ((row + 1) % 256) (pos + k)
        ((List.range k).foldl (fun mm col => mm.set (pos + col) (gf_exp ((row*col) % 255))) m)
    else .ok m

/-- The identity-diagonal loop of the constructor,
`for(byte* p = &enc_matrix[0], col = 0; col < k; col++, p += k+1) *p = 1`.
`col` is a `byte` and wraps at 256 while `p` keeps advancing, so the first
write past the vector is undefined behaviour (`oob`). -/
def diagLoop (k : Nat) : Nat → Nat → Nat → List Nat → Except Err (List Nat)
  | 0, _, _, _ => .error .fuel
  | fuel + 1, col, pos, m =>
    if col < k then
      if pos < m.length then
        diagLoop k fuel ((col + 1) % 256) (pos + (k+1)) (m.set pos 1)
      else .error .oob
    else .ok m

/-- The `fec_code(k, n)` constructor of the source: validation (note that
`k = 0` is not rejected), Vandermonde fill, `invert_vdm` of the top `k×k`
block, `matmul` of the bottom `n-k` rows by the inverted top into the
encoding matrix, memset of the top `k×k` block to zero, and the
identity-diagonal loop. -/
def fec_ctor (fuel k n : Nat) : Except Err (List Nat) :=
  if k > 256 ∨ n > 256 then .error .invalidParameters
  else if k > n then .error .invalidParameters
  else
    match setChecked (List.replicate (n*k) 0) 0 1 with
    | .error e => .error e
    | .ok tmp1 =>
      let tmp2 := (List.range k).foldl (fun m col => if 1 ≤ col then m.set col 0 else m) tmp1
      match vdmFill k n fuel 0 k tmp2 with
      | .error e => .error e
      | .ok tmp3 =>
        let tmp4 := invert_vdm tmp3 k
        let prod := matmul (tmp4.drop (k*k)) tmp4 (n-k) k k
        let enc1 := List.replicate (k*k) 0 ++ prod
        let enc2 := enc1.mapIdx (fun i v => if i < k*k then 0 else v)
        diagLoop k fuel 0 0 enc2

/-! ## Gauss-Jordan inversion (`invert_mat`) -/

/-- The inner pivot scan of `invert_mat` over columns `ix` of row `row`:
skip columns with `ipiv[ix] = 1`, fail on `ipiv[ix] > 1`, succeed on the
first non-zero entry in an unused column. -/
def gjScanIx (m ipiv : List Nat) (k row ix : Nat) : Except Err (Option Nat) :=
  if ix < k then
    if ipiv.getD ix 0 = 0 then
      if m.getD (row*k + ix) 0 ≠ 0 then .ok (some ix)
      else gjScanIx m ipiv k row (ix+1)
    else if ipiv.getD ix 0 > 1 then .error .singularMatrix
    else gjScanIx m ipiv k row (ix+1)
  else .ok none
termination_by k - ix
decreasing_by all_goals omega

/-- The outer pivot scan of `invert_mat`: rows with `ipiv[row] ≠ 1`; when
no pivot is found the source throws (`icol == -1`). -/
def gjScanRow (m ipiv : List Nat) (k row : Nat) : Except Err (Nat × Nat) :=
  if row < k then
    if ipiv.getD row 0 ≠ 1 then
      match gjScanIx m ipiv k row 0 with
      | .error e => .error e
      | .ok (some ix) => .ok (row, ix)
      | .ok none => gjScanRow m ipiv k (row+1)
    else gjScanRow m ipiv k (row+1)
  else .error .singularMatrix
termination_by k - row
decreasing_by all_goals omega

/-- Pivot search of `invert_mat`: prefer the diagonal entry `(col, col)`,
otherwise scan. -/
def gjFindPivot (m ipiv : List Nat) (k col : Nat) : Except Err (Nat × Nat) :=
  if ipiv.getD col 0 ≠ 1 ∧ m.getD (col*k + col) 0 ≠ 0 then .ok (col, col)
  else gjScanRow m ipiv k 0

/-- Swap rows `irow` and `icol` of a row-major `k×k` matrix, element by
element as the source does. -/
def rowSwap (m : List Nat) (k irow icol : Nat) : List Nat :=
  (List.range k).foldl (fun mm i => swapL mm (irow*k + i) (icol*k + i)) m

/-- Pivot-row normalisation of `invert_mat`: fail when the pivot entry is
zero; when it is not 1, set the diagonal entry to 1 first and then scale
the whole row by the inverse of the old pivot (so the diagonal entry ends
as that inverse, as in the in-place Numerical Recipes scheme). -/
def gjNormalize (m : List Nat) (k icol : Nat) : Except Err (List Nat) :=
  let c := m.getD (icol*k + icol) 0
  if c = 0 then .error .singularMatrix
  else if c ≠ 1 then
    let cinv := gf_inverse c
    .ok ((List.range k).foldl
      (fun mm i => mm.set (icol*k + i) (gf_mul cinv (mm.getD (icol*k + i) 0)))
      (m.set (icol*k + icol) 1))
  else .ok m

/-- `memcmp(pivot_row, id_row, k) == 0`: the pivot row equals the unit
vector `e_icol`. -/
def isUnitRow (m : List Nat) (k icol : Nat) : Bool :=
  (List.range k).all (fun i => m.getD (icol*k + i) 0 = if i = icol then 1 else 0)

/-- The elimination pass of `invert_mat`: for every row `i ≠ icol`, read
`c = m[i][icol]`, zero that entry, then `addmul(row_i, pivot_row, c, k)`
(per-index form, justified by `addmul_contract`; `addmul` returns
immediately when `c = 0`). -/
def gjEliminate (m : List Nat) (k icol : Nat) : List Nat :=
  (List.range k).foldl (fun mm i =>
    if i ≠ icol then
      let cc := mm.getD (i*k + icol) 0
      let mm1 := mm.set (i*k + icol) 0
      if cc = 0 then mm1
      else (List.range k).foldl (fun mm2 j =>
        mm2.set (i*k + j) ((mm2.getD (i*k + j) 0) ^^^ gf_mul cc (mm2.getD (icol*k + j) 0))) mm1
    else mm) m

/-- One pivot step of `invert_mat` for column `col`, acting on the state
`(matrix, ipiv, indxr, indxc)`. -/
def gjStep (k : Nat) (st : List Nat × List Nat × List Nat × List Nat) (col : Nat) :
    Except Err (List Nat × List Nat × List Nat × List Nat) :=
  match gjFindPivot st.1 st.2.1 k col with
  | .error e => .error e
  | .ok (irow, icol) =>
    let ipiv2 := st.2.1.set icol (st.2.1.getD icol 0 + 1)
    let m1 := if irow ≠ icol then rowSwap st.1 k irow icol else st.1
    let indxr2 := st.2.2.1.set col irow
    let indxc2 := st.2.2.2.set col icol
    match gjNormalize m1 k icol with
    | .error e => .error e
    | .ok m2 =>
      let m3 := if isUnitRow m2 k icol then m2 else gjEliminate m2 k icol
      .ok (m3, ipiv2, indxr2, indxc2)

/-- The final column-unswap pass of `invert_mat` (`col` from `k-1` down to
0); out-of-range `indxr`/`indxc` entries only produce an stderr message in
the source and skip the swap. -/
def gjUnswap (m : List Nat) (k : Nat) (indxr indxc : List Nat) : List Nat :=
  ((List.range k).reverse).foldl (fun mm col =>
    let r := indxr.getD col 0
    let c := indxc.getD col 0
    if r < k ∧ c < k ∧ r ≠ c then
      (List.range k).foldl (fun mm2 row => swapL mm2 (row*k + r) (row*k + c)) mm
    else mm) m

/-- `invert_mat(src, k)` of the source: `k` pivot steps over the columns,
then the column-unswap pass. -/
def invert_mat (m : List Nat) (k : Nat) : Except Err (List Nat) :=
  match (List.range k).foldlM (gjStep k)
      (m, List.replicate k 0, List.replicate k 0, List.replicate k 0) with
  | .error e => .error e
  | .ok st => .ok (gjUnswap st.1 k st.2.2.1 st.2.2.2)

/-! ## Codec operations -/

/-- The unit row written by `build_decode_matrix` for a systematic shard
(`memset` to zero then `p[i] = 1`). -/
def unitRowD (k i : Nat) : List Nat :=
  (List.range k).map (fun j => if j = i then 1 else 0)

/-- The `memcpy` of encoding-matrix row `v` done by `build_decode_matrix`. -/
def encRowD (k : Nat) (enc : List Nat) (v : Nat) : List Nat :=
  (List.range k).map (fun j => enc.getD (v*k + j) 0)

/-- The row-filling loop of `build_decode_matrix`: row `i` is a unit row
when `index[i] < k`, a copy of encoding-matrix row `index[i]` when
`index[i] < n`, and a thrown logic error otherwise.  `left` counts the
remaining iterations (`k - i`), making the recursion structural. -/
def buildRows (k n : Nat) (enc index : List Nat) : Nat → Nat → Except Err (List (List Nat))
  | 0, _ => .ok []
  | left + 1, i =>
    if i < k then
      if index.getD i 0 < k then
        match buildRows k n enc index left (i+1) with
        | .error e => .error e
        | .ok rest => .ok (unitRowD k i :: rest)
      else if index.getD i 0 < n then
        match buildRows k n enc index left (i+1) with
        | .error e => .error e
        | .ok rest => .ok (encRowD k enc (index.getD i 0) :: rest)
      else .error .badIndex
    else .ok []

/-- `build_decode_matrix` of the source: assemble the `k×k` matrix row by
row from the received indexes, then invert it in place via `invert_mat`. -/
def build_decode_matrix (k n : Nat) (enc : List Nat) (index : List Nat) :
    Except Err (List Nat) :=
  match buildRows k n enc index k 0 with
  | .error e => .error e
  | .ok rows => invert_mat rows.flatten k

/-- `fec_code::encode`: index check, verbatim copy for systematic indices,
otherwise zero the output and `addmul_k` with the encoding-matrix row. -/
def encode (k n : Nat) (enc : List Nat) (src : List (List Nat)) (index sz : Nat) :
    Except Err (List Nat) :=
  if index ≥ n then .error .invalidIndex
  else if index < k then
    .ok ((List.range sz).map (fun j => (src.getD index []).getD j 0))
  else
    .ok (addmul_k (List.replicate sz 0) src
      ((List.range k).map (fun j => enc.getD (index*k + j) 0)) sz k)

/-- `memcpy(dst, new, sz)` into an existing shard buffer. -/
def memcpyPrefix (old new : List Nat) (sz : Nat) : List Nat :=
  old.mapIdx (fun j v => if j < sz then new.getD j 0 else v)

/-- `fec_code::decode`: shuffle (throwing on conflict), build and invert
the decode matrix, reconstruct every row holding a parity shard into a
fresh zeroed buffer via `addmul_k` over the received packets, and copy the
reconstructions back. -/
def decode (fuel k n : Nat) (enc : List Nat) (pkt : List (List Nat))
    (index : List Nat) (sz : Nat) :
    Except Err (List (List Nat) × List Nat) :=
  match shuffle k fuel index pkt with
  | none => .error .fuel
  | some (true, _, _, _) => .error .duplicateIndex
  | some (false, idx1, pkt1, _) =>
    match build_decode_matrix k n enc idx1 with
    | .error e => .error e
    | .ok m_dec =>
      let newPkt := (List.range k).map (fun row =>
        if k ≤ idx1.getD row 0 then
          addmul_k (List.replicate sz 0) pkt1
            ((List.range k).map (fun j => m_dec.getD (row*k + j) 0)) sz k
        else [])
      .ok ((List.range k).map (fun row =>
        if k ≤ idx1.getD row 0 then
          memcpyPrefix (pkt1.getD row []) (newPkt.getD row []) sz
        else pkt1.getD row []), idx1)

/-! ## Constructor: the byte-counter loop at `k = 256` and the `k = 0` gap -/

/-- At `k = 256` the identity-diagonal loop can never exit normally: its
`byte` counter always satisfies `col < 256`, so every step either burns
fuel or walks off the end of the vector. -/
theorem diagLoop_256_not_ok :
    ∀ (fuel col pos : Nat) (m M : List Nat), col < 256 →
      diagLoop 256 fuel col pos m ≠ .ok M := by
  intro fuel
  induction fuel with
  | zero =>
    intro col pos m M _ h
    simp [diagLoop] at h
  | succ fuel ih =>
    intro col pos m M hcol h
    rw [diagLoop, if_pos hcol] at h
    by_cases hp : pos < m.length
    · rw [if_pos hp] at h
      exact ih _ _ _ M (Nat.mod_lt _ (by omega)) h
    · rw [if_neg hp] at h
      simp at h

/-- The constructor never returns at `k = n = 256`: all stages before the
diagonal loop complete, and the diagonal loop never exits normally. -/
theorem fec_ctor_256_not_ok : ∀ (fuel : Nat) (M : List Nat),
    fec_ctor fuel 256 256 ≠ .ok M := by
  intro fuel M h
  rw [fec_ctor] at h
  rw [if_neg (by omega : ¬ (256 > 256 ∨ 256 > 256)), if_neg (by omega : ¬ (256 > 256))] at h
  cases hs : setChecked (List.replicate (256*256) 0) 0 1 with
  | error e => rw [hs] at h; simp at h
  | ok tmp1 =>
    rw [hs] at h
    dsimp only at h
    cases hv : vdmFill 256 256 fuel 0 256
        (List.foldl (fun m col => if 1 ≤ col then m.set col 0 else m) tmp1 (List.range 256)) with
    | error e => rw [hv] at h; simp at h
    | ok tmp3 =>
      rw [hv] at h
      dsimp only at h
      exact diagLoop_256_not_ok fuel 0 0 _ M (by omega) h

/-- C1: the round trip cannot hold for every `1 ≤ k ≤ n ≤ 256`: at
`k = n = 256` the constructor never returns (its identity-diagonal loop
counter is a `byte` and wraps), so no encode/decode can be performed at
all.  For parameters below 256 the pipeline does round-trip; the second
conjunct records it on the spec scenario `k = 3, n = 5, sz = 1`,
`src = [[1],[2],[3]]`: encoding at the distinct indices `{1,3,4}` and
decoding those three shards reproduces the sources byte for byte. -/
theorem roundtrip_claim_fails_at_256 :
    (∀ (fuel : Nat) (M : List Nat), fec_ctor fuel 256 256 ≠ .ok M)
      ∧ fec_ctor 1000 3 5 = .ok [1,0,0, 0,1,0, 0,0,1, 15,8,6, 45,48,28]
      ∧ encode 3 5 [1,0,0, 0,1,0, 0,0,1, 15,8,6, 45,48,28] [[1],[2],[3]] 1 1 = .ok [2]
      ∧ encode 3 5 [1,0,0, 0,1,0, 0,0,1, 15,8,6, 45,48,28] [[1],[2],[3]] 3 1 = .ok [21]
      ∧ encode 3 5 [1,0,0, 0,1,0, 0,0,1, 15,8,6, 45,48,28] [[1],[2],[3]] 4 1 = .ok [105]
      ∧ decode 100 3 5 [1,0,0, 0,1,0, 0,0,1, 15,8,6, 45,48,28]
          [[2],[21],[105]] [1,3,4] 1 = .ok ([[1],[2],[3]], [3,1,4]) :=
  ⟨fec_ctor_256_not_ok, rfl, rfl, rfl, rfl, rfl⟩

/-- C2: construction does not validate `1 ≤ k`: at `k = 0` both checks of
the source pass (`k > 256` and `k > n` are false) and the constructor then
performs the out-of-bounds write `tmp_m[0] = 1` on an empty vector instead
of failing with InvalidParameters.  Outside the accepted range the source
does throw InvalidParameters, and at `k = n = 256` (which the claim says
must succeed) construction never returns. -/
theorem ctor_validation_bug :
    (∀ fuel, fec_ctor fuel 0 1 = .error .oob)
      ∧ Err.oob ≠ Err.invalidParameters
      ∧ (∀ fuel k n, 256 < k ∨ 256 < n ∨ n < k →
          fec_ctor fuel k n = .error .invalidParameters)
      ∧ (∀ (fuel : Nat) (M : List Nat), fec_ctor fuel 256 256 ≠ .ok M) := by
  refine ⟨fun fuel => rfl, by decide, ?_, fec_ctor_256_not_ok⟩
  intro fuel k n h
  rw [fec_ctor]
  by_cases h1 : k > 256 ∨ n > 256
  · rw [if_pos h1]
  · rw [if_neg h1, if_pos (by omega : k > n)]

/-! ## C3: the top k x k block is the identity -/

/-- When the diagonal loop exits normally (possible only for `k ≤ 255`,
where the byte counter never wraps), it has written 1 exactly at the
positions `t*(k+1)` for `col ≤ t < k`. -/
theorem diagLoop_ok_char (k : Nat) (hk : k ≤ 255) :
    ∀ (fuel col pos : Nat) (m M : List Nat), col ≤ k → pos = col * (k+1) →
      diagLoop k fuel col pos m = .ok M →
      ∀ idx, M.getD idx 0 =
        if idx % (k+1) = 0 ∧ col ≤ idx / (k+1) ∧ idx / (k+1) < k then 1
        else m.getD idx 0 := by
  intro fuel
  induction fuel with
  | zero =>
    intro col pos m M _ _ h
    simp [diagLoop] at h
  | succ fuel ih =>
    intro col pos m M hcol hpos h
    rw [diagLoop] at h
    by_cases hc : col < k
    · rw [if_pos hc] at h
      by_cases hp : pos < m.length
      · rw [if_pos hp] at h
        have hmod : (col + 1) % 256 = col + 1 := Nat.mod_eq_of_lt (by omega)
        rw [hmod] at h
        have hrec := ih (col+1) (pos + (k+1)) (m.set pos 1) M (by omega)
          (by rw [hpos]; ring) h
        intro idx
        rw [hrec idx]
        by_cases hcond : idx % (k+1) = 0 ∧ col + 1 ≤ idx / (k+1) ∧ idx / (k+1) < k
        · rw [if_pos hcond, if_pos ⟨hcond.1, by omega, hcond.2.2⟩]
        · rw [if_neg hcond]
          by_cases hip : idx = pos
          · subst hip
            have hm0 : idx % (k+1) = 0 := by rw [hpos]; exact Nat.mul_mod_left col (k+1)
            have hd0 : idx / (k+1) = col := by rw [hpos]; exact Nat.mul_div_cancel col (by omega)
            rw [if_pos ⟨hm0, by omega, by omega⟩]
            rw [List.getD_eq_getElem?_getD, List.getElem?_set_self hp]
            rfl
          · have hne : ¬ (idx % (k+1) = 0 ∧ col ≤ idx / (k+1) ∧ idx / (k+1) < k) := by
              intro ⟨hm0, hcle, hlt⟩
              have hd_le : idx / (k+1) ≤ col := by
                by_contra hgt
                exact hcond ⟨hm0, by omega, hlt⟩
              have ht : idx / (k+1) = col := le_antisymm hd_le hcle
              have hdm := Nat.div_add_mod idx (k+1)
              rw [ht] at hdm
              have hcomm : (k+1)*col = col*(k+1) := Nat.mul_comm _ _
              apply hip
              rw [hpos]
              omega
            rw [if_neg hne, List.getD_eq_getElem?_getD,
              List.getElem?_set_ne (fun hh => hip hh.symm), ← List.getD_eq_getElem?_getD]
      · rw [if_neg hp] at h
        simp at h
    · rw [if_neg hc] at h
      have hM : M = m := by
        cases h
        rfl
      subst hM
      intro idx
      rw [if_neg (by omega)]

/-- Inversion of a successful construction: the result is the output of the
diagonal loop run on a matrix whose first `k*k` entries are zero. -/
theorem fec_ctor_ok_inv (fuel k n : Nat) (M : List Nat)
    (h : fec_ctor fuel k n = .ok M) :
    ∃ enc2 : List Nat, diagLoop k fuel 0 0 enc2 = .ok M
      ∧ ∀ idx, idx < k*k → enc2.getD idx 0 = 0 := by
  rw [fec_ctor] at h
  by_cases h1 : k > 256 ∨ n > 256
  · rw [if_pos h1] at h; simp at h
  · rw [if_neg h1] at h
    by_cases h2 : k > n
    · rw [if_pos h2] at h; simp at h
    · rw [if_neg h2] at h
      cases hs : setChecked (List.replicate (n*k) 0) 0 1 with
      | error e => rw [hs] at h; simp at h
      | ok tmp1 =>
        rw [hs] at h
        dsimp only at h
        cases hv : vdmFill k n fuel 0 k
            (List.foldl (fun m col => if 1 ≤ col then m.set col 0 else m) tmp1 (List.range k)) with
        | error e => rw [hv] at h; simp at h
        | ok tmp3 =>
          rw [hv] at h
          dsimp only at h
          refine ⟨_, h, ?_⟩
          intro idx hidx
          set tmp4 := invert_vdm tmp3 k with htmp4
          set prod := matmul (List.drop (k*k) tmp4) tmp4 (n-k) k k with hprod
          have hlen1 : idx < (List.replicate (k*k) (0:Nat) ++ prod).length := by
            simp [List.length_append, List.length_replicate]
            omega
          have hlen2 : idx < (List.mapIdx (fun i v => if i < k*k then 0 else v)
              (List.replicate (k*k) (0:Nat) ++ prod)).length := by
            rw [List.length_mapIdx]; exact hlen1
          rw [List.getD_eq_getElem?_getD, List.getElem?_eq_getElem hlen2]
          rw [List.getElem_mapIdx]
          simp [hidx]

/-- Decomposing an index of the top block: `i*k + j = t*(k+1)` with
`i, j < k` forces `t = i` and `j = i`. -/
theorem diag_index_eq {k i j t : Nat} (hi : i < k) (hj : j < k)
    (h : i*k + j = t*(k+1)) : t = i ∧ j = i := by
  have e1 : t*(k+1) = t*k + t := by ring
  rcases Nat.lt_trichotomy t i with hlt | heq | hgt
  · have h2 : (t+1)*k ≤ i*k := Nat.mul_le_mul_right k (by omega)
    have e2 : (t+1)*k = t*k + k := by ring
    omega
  · subst heq
    exact ⟨rfl, by omega⟩
  · have h2 : (i+1)*k ≤ t*k := Nat.mul_le_mul_right k (by omega)
    have e2 : (i+1)*k = i*k + k := by ring
    omega

/-- C3: for every `(k, n)` with `1 ≤ k ≤ n ≤ 256`, after a successful
construction the stored `n×k` encoding matrix has its top `k×k` block equal
to the identity: entry `(i, j)` is 1 when `i = j` and 0 otherwise.  (At
`k = 256` the hypothesis is vacuous: construction never succeeds.) -/
theorem ctor_top_identity (k n fuel : Nat) (M : List Nat)
    (hk : 1 ≤ k) (hkn : k ≤ n) (hn : n ≤ 256)
    (h : fec_ctor fuel k n = .ok M) :
    ∀ i j, i < k → j < k → M.getD (i*k + j) 0 = if i = j then 1 else 0 := by
  obtain ⟨enc2, hd, hz⟩ := fec_ctor_ok_inv fuel k n M h
  by_cases hk255 : k ≤ 255
  · have hchar := diagLoop_ok_char k hk255 fuel 0 0 enc2 M (by omega) (by ring) hd
    intro i j hik hjk
    rw [hchar (i*k + j)]
    by_cases hij : i = j
    · subst hij
      have hidx : i*k + i = i*(k+1) := by ring
      rw [if_pos ⟨by rw [hidx]; exact Nat.mul_mod_left i (k+1),
        Nat.zero_le _, by rw [hidx, Nat.mul_div_cancel i (by omega)]; exact hik⟩]
      rw [if_pos rfl]
    · have hne : ¬ ((i*k + j) % (k+1) = 0 ∧ 0 ≤ (i*k + j) / (k+1) ∧ (i*k + j) / (k+1) < k) := by
        intro ⟨hm0, _, hlt⟩
        have hdm := Nat.div_add_mod (i*k + j) (k+1)
        have hcomm : ((i*k + j) / (k+1)) * (k+1) = (k+1) * ((i*k + j) / (k+1)) :=
          Nat.mul_comm _ _
        have heq : i*k + j = ((i*k + j) / (k+1)) * (k+1) := by omega
        obtain ⟨ht, hji⟩ := diag_index_eq hik hjk heq
        exact hij hji.symm
      rw [if_neg hne, if_neg hij]
      exact hz (i*k + j) (by nlinarith)
  · have hk256 : k = 256 := by omega
    subst hk256
    exact absurd hd (diagLoop_256_not_ok fuel 0 0 enc2 M (by omega))

/-- Witness for C3 at `k = 2, n = 3`. -/
theorem ctor_top_identity_witness :
    fec_ctor 1000 2 3 = .ok [1,0, 0,1, 3,2]
      ∧ ∀ i j, i < 2 → j < 2 →
          ([1,0, 0,1, 3,2] : List Nat).getD (i*2 + j) 0 = if i = j then 1 else 0 :=
  ⟨rfl, ctor_top_identity 2 3 1000 [1,0, 0,1, 3,2] (by decide) (by decide) (by decide) rfl⟩

/-! ## C7: invert_vdm at k = 1 -/

/-- C7 counterexample: on the 1×1 matrix `[5]`, `invert_vdm` returns with
the 5 still in place; it does not write the identity `[1]`. -/
theorem invert_vdm_k1_counterexample :
    invert_vdm [5] 1 = [5] ∧ invert_vdm [5] 1 ≠ [1] :=
  ⟨rfl, by decide⟩

/-- C7 amended: for `k = 1`, `invert_vdm` returns immediately leaving the
matrix unchanged (the `k == 1` branch is `return 0` with no write; the sole
caller has already placed `tmp_m[0] = 1` there, so at the call site the
result is the 1×1 identity). -/
theorem invert_vdm_k1_unchanged (src : List Nat) : invert_vdm src 1 = src := by
  simp [invert_vdm]

/-! ## C6: duplicate source indices are rejected -/

/-- C6: every decode call whose index array (length `k`) holds the same
value `v < k` at two distinct positions fails with DuplicateIndex, for
every packet array, encoding matrix, shard size and sufficient fuel. -/
theorem decode_duplicate_source_index (fuel k n : Nat) (enc : List Nat)
    (pkt : List (List Nat)) (index : List Nat) (sz v : Nat)
    (hlen : index.length = k) (hfuel : 2*k + 2 ≤ fuel)
    (p q : Nat) (hp : p < k) (hq : q < k) (hpq : p ≠ q)
    (hvp : index.getD p 0 = v) (hvq : index.getD q 0 = v) (hv : v < k) :
    decode fuel k n enc pkt index sz = .error .duplicateIndex := by
  have hterm : (shuffle k fuel index pkt).isSome := by
    have hfc := fixedCount_le k index
    exact shuffleAux_terminates k fuel 0 index pkt hlen (by omega) (by omega)
  obtain ⟨⟨e, idx2, pkt2, s⟩, hs⟩ := Option.isSome_iff_exists.mp hterm
  have he : e = true := by
    by_contra hef
    have he2 : e = false := by
      cases e
      · rfl
      · exact absurd rfl hef
    subst he2
    obtain ⟨p2, q2, hp2, hq2, hpq2, hvp2, hvq2⟩ :=
      shuffleAux_dup k v fuel 0 index pkt idx2 pkt2 s hlen
        ⟨p, q, hp, hq, hpq, hvp, hvq⟩ hs
    have hpost := shuffleAux_post k fuel 0 index pkt idx2 pkt2 s hlen
      (by omega) (by intro j hj; omega) hs
    have h1 := hpost p2 hp2
    have h2 := hpost q2 hq2
    omega
  subst he
  rw [decode, shuffle] at *
  rw [hs]

/-- Witness for C6: the spec scenario `k = 10, n = 20`,
`index = [0,0,1,2,3,4,5,6,7,8]` (positions 0 and 1 both claim slot 0). -/
theorem decode_duplicate_source_index_witness :
    decode 100 10 20 (List.replicate 200 0) (List.replicate 10 [0])
      [0,0,1,2,3,4,5,6,7,8] 1 = .error .duplicateIndex :=
  decode_duplicate_source_index 100 10 20 (List.replicate 200 0)
    (List.replicate 10 [0]) [0,0,1,2,3,4,5,6,7,8] 1 0 (by decide) (by decide)
    0 1 (by decide) (by decide) (by decide) (by decide) (by decide) (by decide)

/-! ## C8: the index array after a successful decode -/

/-- C8 counterexample: decode at `k = 1, n = 2` from the parity shard alone
(`index = [1]`, using the real encoding matrix `[1,1]` built by the
constructor) succeeds, recovers the source into `pkt[0]`, but leaves
`index = [1]`: position 0 participated in recovery yet `index[0] ≠ 0`. -/
theorem decode_index_not_canonical :
    fec_ctor 1000 1 2 = .ok [1, 1]
      ∧ decode 100 1 2 [1, 1] [[7]] [1] 1 = .ok ([[7]], [1])
      ∧ ([1] : List Nat) ≠ [0] :=
  ⟨rfl, rfl, by decide⟩

/-- C8 amended: after a successful decode, `index[i] = i` holds for every
position `i < k` whose final entry is a source index (`index[i] < k`);
positions holding parity indices (`≥ k`) keep those parity values. -/
theorem decode_post_index (fuel k n : Nat) (enc : List Nat) (pkt : List (List Nat))
    (index : List Nat) (sz : Nat) (pkt2 : List (List Nat)) (idx2 : List Nat)
    (hlen : index.length = k)
    (h : decode fuel k n enc pkt index sz = .ok (pkt2, idx2)) :
    ∀ i, i < k → idx2.getD i 0 < k → idx2.getD i 0 = i := by
  rw [decode] at h
  cases hs : shuffle k fuel index pkt with
  | none => rw [hs] at h; simp at h
  | some r =>
    obtain ⟨e, idx1, pkt1, s⟩ := r
    rw [hs] at h
    cases e with
    | true => simp at h
    | false =>
      dsimp only at h
      cases hb : build_decode_matrix k n enc idx1 with
      | error e2 => rw [hb] at h; simp at h
      | ok m_dec =>
        rw [hb] at h
        dsimp only at h
        have hidx : idx2 = idx1 := by
          cases h
          rfl
        subst hidx
        have hpost := shuffleAux_post k fuel 0 index pkt idx2 pkt1 s hlen
          (by omega) (by intro j hj; omega) hs
        intro i hik hlt
        have := hpost i hik
        omega

/-- Witness for C8 (amended) on the `k = 3, n = 5` scenario, where the
successful decode ends with `index = [3,1,4]`: position 1 holds a source
index and it is canonical. -/
theorem decode_post_index_witness :
    ([3,1,4] : List Nat).getD 1 0 = 1 :=
  decode_post_index 100 3 5 [1,0,0, 0,1,0, 0,0,1, 15,8,6, 45,48,28]
    [[2],[21],[105]] [1,3,4] 1 [[1],[2],[3]] [3,1,4] (by decide) rfl
    1 (by decide) (by decide)

/-! ## Finite-field facts about the tables (all finitely checkable) -/

theorem gf_exp_lt (i : Nat) : gf_exp i < 256 := by
  rw [gf_exp, List.getD_eq_getElem?_getD]
  cases h : GF_EXP[i]? with
  | none => simp
  | some v =>
    have hmem := List.getElem?_mem h
    have hall : GF_EXP.all (fun v => decide (v < 256)) = true := by decide
    rw [List.all_eq_true] at hall
    simpa using hall v hmem

theorem gf_mul_lt (a b : Nat) : gf_mul a b < 256 := by
  rw [gf_mul]
  by_cases h : a = 0 ∨ b = 0
  · rw [if_pos h]; omega
  · rw [if_neg h]; exact gf_exp_lt _

theorem gf_mul_zero_right (a : Nat) : gf_mul a 0 = 0 := by simp [gf_mul]

theorem gf_mul_zero_left (b : Nat) : gf_mul 0 b = 0 := by simp [gf_mul]

theorem gf_exp_log (x : Nat) (h1 : 0 < x) (h2 : x < 256) :
    gf_exp (gf_log x) = x ∧ gf_log x < 255 := by
  have hall : ∀ y, y < 255 → gf_exp (gf_log (y+1)) = y + 1 ∧ gf_log (y+1) < 255 := by decide
  have := hall (x - 1) (by omega)
  have hx : x - 1 + 1 = x := by omega
  rw [hx] at this
  exact this

theorem gf_log_exp (i : Nat) (h : i < 255) : gf_log (gf_exp i) = i := by
  revert h
  revert i
  decide

theorem gf_exp_ne_zero (i : Nat) (h : i < 255) : gf_exp i ≠ 0 := by
  revert h
  revert i
  decide

theorem gf_inverse_spec (c : Nat) (h1 : 0 < c) (h2 : c < 256) :
    gf_mul c (gf_inverse c) = 1 ∧ 0 < gf_inverse c ∧ gf_inverse c < 256 := by
  have hall : ∀ y, y < 255 → gf_mul (y+1) (gf_inverse (y+1)) = 1
      ∧ 0 < gf_inverse (y+1) ∧ gf_inverse (y+1) < 256 := by decide
  have := hall (c - 1) (by omega)
  have hx : c - 1 + 1 = c := by omega
  rw [hx] at this
  exact this

theorem gf_mul_ne_zero (a b : Nat) (ha0 : 0 < a) (ha : a < 256)
    (hb0 : 0 < b) (hb : b < 256) : gf_mul a b ≠ 0 := by
  rw [gf_mul, if_neg (by omega)]
  exact gf_exp_ne_zero _ (Nat.mod_lt _ (by omega))

theorem gf_log_mul (a b : Nat) (ha0 : 0 < a) (ha : a < 256)
    (hb0 : 0 < b) (hb : b < 256) :
    gf_log (gf_mul a b) = (gf_log a + gf_log b) % 255 := by
  rw [gf_mul, if_neg (by omega)]
  exact gf_log_exp _ (Nat.mod_lt _ (by omega))

/-- Multiplying by `c` and then by anything of the form `INV[c]·x`
recovers `x`: the cancellation used by the elimination pass. -/
theorem gf_mul_inv_mul_cancel (c x : Nat) (hc0 : 0 < c) (hc : c < 256)
    (hx : x < 256) : gf_mul c (gf_mul (gf_inverse c) x) = x := by
  obtain ⟨hinv1, hinv0, hinvlt⟩ := gf_inverse_spec c hc0 hc
  by_cases hx0 : x = 0
  · subst hx0
    rw [gf_mul_zero_right, gf_mul_zero_right]
  · have hx0' : 0 < x := by omega
    have hmul0 : 0 < gf_mul (gf_inverse c) x := by
      have := gf_mul_ne_zero (gf_inverse c) x hinv0 hinvlt hx0' hx
      omega
    have hmullt : gf_mul (gf_inverse c) x < 256 := gf_mul_lt _ _
    rw [gf_mul, if_neg (by omega)]
    rw [gf_log_mul (gf_inverse c) x hinv0 hinvlt hx0' hx]
    have hci : (gf_log c + gf_log (gf_inverse c)) % 255 = 0 := by
      have hlog1 : gf_log (gf_mul c (gf_inverse c)) = (gf_log c + gf_log (gf_inverse c)) % 255 :=
        gf_log_mul c (gf_inverse c) hc0 hc hinv0 hinvlt
      rw [hinv1] at hlog1
      have h10 : gf_log 1 = 0 := by decide
      omega
    have hlx : gf_log x < 255 := (gf_exp_log x hx0' hx).2
    have hsum : (gf_log c + (gf_log (gf_inverse c) + gf_log x) % 255) % 255
        = gf_log x := by omega
    rw [hsum]
    exact (gf_exp_log x hx0' hx).1

theorem gf_mul_one_left (x : Nat) (hx : x < 256) : gf_mul 1 x = x := by
  revert hx
  revert x
  decide

theorem gf_mul_one_right (x : Nat) (hx : x < 256) : gf_mul x 1 = x := by
  revert hx
  revert x
  decide

theorem gf_inverse_ne_one (c : Nat) (hc : c < 256) (h0 : c ≠ 0) (h1 : c ≠ 1) :
    gf_inverse c ≠ 1 := by
  revert h1 h0 hc
  revert c
  decide

/-! ## Pointwise characterisation of the Gauss-Jordan primitives -/

/-- Row-major index decomposition is injective when both column parts are
below `k`. -/
theorem rowcol_inj {k r1 j1 r2 j2 : Nat} (hj1 : j1 < k) (hj2 : j2 < k) :
    r1*k + j1 = r2*k + j2 ↔ r1 = r2 ∧ j1 = j2 := by
  constructor
  · intro h
    rcases Nat.lt_trichotomy r1 r2 with hlt | heq | hgt
    · have h2 : (r1+1)*k ≤ r2*k := Nat.mul_le_mul_right k (by omega)
      have e2 : (r1+1)*k = r1*k + k := by ring
      omega
    · subst heq
      omega
    · have h2 : (r2+1)*k ≤ r1*k := Nat.mul_le_mul_right k (by omega)
      have e2 : (r2+1)*k = r2*k + k := by ring
      omega
  · intro ⟨h1, h2⟩
    subst h1
    subst h2
    rfl

/-- A fold whose step preserves the length preserves the length. -/
theorem foldl_length {α : Type} (f : List Nat → α → List Nat) (l : List α)
    (h : ∀ m x, (f m x).length = m.length) :
    ∀ m : List Nat, (l.foldl f m).length = m.length := by
  induction l with
  | nil => intro m; rfl
  | cons a l ih => intro m; rw [List.foldl_cons, ih, h]

theorem length_rowSwap (m : List Nat) (k irow icol : Nat) :
    (rowSwap m k irow icol).length = m.length :=
  foldl_length _ _ (fun m _ => length_swapL m _ _) m

theorem rowSwap_fold_getD (m : List Nat) (k irow icol : Nat)
    (hir : irow < k) (hic : icol < k) (hlen : m.length = k*k) (hne : irow ≠ icol) :
    ∀ (cnt : Nat), cnt ≤ k → ∀ r j, r < k → j < k →
      ((List.range cnt).foldl (fun mm i => swapL mm (irow*k + i) (icol*k + i)) m).getD (r*k + j) 0 =
        if r = irow ∧ j < cnt then m.getD (icol*k + j) 0
        else if r = icol ∧ j < cnt then m.getD (irow*k + j) 0
        else m.getD (r*k + j) 0 := by
  intro cnt
  induction cnt with
  | zero =>
    intro _ r j hr hj
    rw [if_neg (by omega), if_neg (by omega)]
    rfl
  | succ cnt ih =>
    intro hcnt r j hr hj
    rw [List.range_succ, List.foldl_append, List.foldl_cons, List.foldl_nil]
    have hlenF : ((List.range cnt).foldl
        (fun mm i => swapL mm (irow*k + i) (icol*k + i)) m).length = k*k := by
      rw [foldl_length _ _ (fun m x => length_swapL m _ _) m, hlen]
    rw [getD_swapL _ (r*k + j) 0 (by rw [hlenF]; nlinarith) (by rw [hlenF]; nlinarith)
      (by rw [Ne, rowcol_inj (by omega) (by omega)]; omega)]
    by_cases h1 : r*k + j = icol*k + cnt
    · obtain ⟨hri, hjc⟩ := (rowcol_inj (show j < k by omega) (show cnt < k by omega)).mp h1
      rw [if_pos h1]
      rw [ih (by omega) irow cnt hir (by omega)]
      rw [if_neg (by omega), if_neg (by omega)]
      rw [if_neg (by omega : ¬ (r = irow ∧ j < cnt + 1)), if_pos (by omega : r = icol ∧ j < cnt + 1)]
      rw [hjc]
    · rw [if_neg h1]
      by_cases h2 : r*k + j = irow*k + cnt
      · obtain ⟨hri, hjc⟩ := (rowcol_inj (show j < k by omega) (show cnt < k by omega)).mp h2
        rw [if_pos h2]
        rw [ih (by omega) icol cnt hic (by omega)]
        rw [if_neg (by omega), if_neg (by omega)]
        rw [if_pos (by omega : r = irow ∧ j < cnt + 1)]
        rw [hjc]
      · rw [if_neg h2]
        rw [ih (by omega) r j hr hj]
        have hne1 : ¬ (r = irow ∧ j = cnt) := by
          intro ⟨ha, hb⟩
          exact h2 (by rw [ha, hb])
        have hne2 : ¬ (r = icol ∧ j = cnt) := by
          intro ⟨ha, hb⟩
          exact h1 (by rw [ha, hb])
        by_cases hc1 : r = irow ∧ j < cnt
        · rw [if_pos hc1, if_pos (by omega : r = irow ∧ j < cnt + 1)]
        · rw [if_neg hc1]
          by_cases hc2 : r = icol ∧ j < cnt
          · rw [if_pos hc2, if_neg (by omega : ¬ (r = irow ∧ j < cnt + 1)),
              if_pos (by omega : r = icol ∧ j < cnt + 1)]
          · rw [if_neg hc2, if_neg (by omega : ¬ (r = irow ∧ j < cnt + 1)),
              if_neg (by omega : ¬ (r = icol ∧ j < cnt + 1))]

/-- Net effect of the element-wise row swap: row `irow` and row `icol`
exchange contents, everything else is untouched. -/
theorem rowSwap_getD (m : List Nat) (k irow icol : Nat)
    (hir : irow < k) (hic : icol < k) (hlen : m.length = k*k) (hne : irow ≠ icol)
    (r j : Nat) (hr : r < k) (hj : j < k) :
    (rowSwap m k irow icol).getD (r*k + j) 0 =
      m.getD ((if r = irow then icol else if r = icol then irow else r)*k + j) 0 := by
  rw [rowSwap, rowSwap_fold_getD m k irow icol hir hic hlen hne k (le_refl k) r j hr hj]
  by_cases h1 : r = irow
  · rw [if_pos ⟨h1, hj⟩, if_pos h1]
  · rw [if_neg (by omega)]
    by_cases h2 : r = icol
    · rw [if_pos ⟨h2, hj⟩, if_neg h1, if_pos h2]
    · rw [if_neg (by omega), if_neg h1, if_neg h2]

theorem scaleRow_fold_getD (m : List Nat) (k icol cinv : Nat)
    (hic : icol < k) (hlen : m.length = k*k) :
    ∀ (cnt : Nat), cnt ≤ k → ∀ x,
      ((List.range cnt).foldl
        (fun mm i => mm.set (icol*k + i) (gf_mul cinv (mm.getD (icol*k + i) 0))) m).getD x 0 =
      if icol*k ≤ x ∧ x < icol*k + cnt then gf_mul cinv (m.getD x 0) else m.getD x 0 := by
  intro cnt
  induction cnt with
  | zero =>
    intro _ x
    rw [if_neg (by omega)]
    rfl
  | succ cnt ih =>
    intro hcnt x
    rw [List.range_succ, List.foldl_append, List.foldl_cons, List.foldl_nil]
    have hlenF : ((List.range cnt).foldl
        (fun mm i => mm.set (icol*k + i) (gf_mul cinv (mm.getD (icol*k + i) 0))) m).length = k*k := by
      rw [foldl_length _ _ (fun m x => List.length_set m _ _) m, hlen]
    have hcur : ((List.range cnt).foldl
        (fun mm i => mm.set (icol*k + i) (gf_mul cinv (mm.getD (icol*k + i) 0))) m).getD
          (icol*k + cnt) 0 = m.getD (icol*k + cnt) 0 := by
      rw [ih (by omega) (icol*k + cnt), if_neg (by omega)]
    by_cases hx : x = icol*k + cnt
    · subst hx
      rw [List.getD_eq_getElem?_getD, List.getElem?_set_self (by rw [hlenF]; nlinarith)]
      rw [hcur]
      rw [if_pos (by omega)]
      rfl
    · rw [List.getD_eq_getElem?_getD, List.getElem?_set_ne (fun h => hx h.symm),
        ← List.getD_eq_getElem?_getD]
      rw [ih (by omega) x]
      by_cases hr : icol*k ≤ x ∧ x < icol*k + cnt
      · rw [if_pos hr, if_pos (by omega)]
      · rw [if_neg hr, if_neg (by omega)]

/-- Inversion and net effect of a successful pivot-row normalisation. -/
theorem gjNormalize_ok_getD (m : List Nat) (k icol : Nat) (hic : icol < k)
    (hlen : m.length = k*k) (m2 : List Nat)
    (h : gjNormalize m k icol = .ok m2) :
    m.getD (icol*k + icol) 0 ≠ 0 ∧ m2.length = k*k ∧
    ((m.getD (icol*k + icol) 0 = 1 ∧ m2 = m) ∨
     (m.getD (icol*k + icol) 0 ≠ 1 ∧
      ∀ r j, r < k → j < k →
        m2.getD (r*k + j) 0 =
          if r = icol then
            gf_mul (gf_inverse (m.getD (icol*k + icol) 0))
              (if j = icol then 1 else m.getD (icol*k + j) 0)
          else m.getD (r*k + j) 0)) := by
  rw [gjNormalize] at h
  by_cases hc0 : m.getD (icol*k + icol) 0 = 0
  · rw [if_pos hc0] at h
    simp at h
  · rw [if_neg hc0] at h
    by_cases hc1 : m.getD (icol*k + icol) 0 = 1
    · rw [if_neg (by simpa using hc1)] at h
      cases h
      exact ⟨hc0, hlen, Or.inl ⟨hc1, rfl⟩⟩
    · rw [if_pos (by simpa using hc1)] at h
      have hm2 : m2 = (List.range k).foldl
          (fun mm i => mm.set (icol*k + i)
            (gf_mul (gf_inverse (m.getD (icol*k + icol) 0)) (mm.getD (icol*k + i) 0)))
          (m.set (icol*k + icol) 1) := by
        cases h
        rfl
      have hlen1 : (m.set (icol*k + icol) (1:Nat)).length = k*k := by
        rw [List.length_set, hlen]
      refine ⟨hc0, ?_, Or.inr ⟨hc1, ?_⟩⟩
      · rw [hm2, foldl_length _ _ (fun m x => List.length_set m _ _), hlen1]
      · intro r j hr hj
        rw [hm2, scaleRow_fold_getD _ k icol _ hic hlen1 k (le_refl k) (r*k + j)]
        have hbase : ∀ jj, jj < k →
            (m.set (icol*k + icol) 1).getD (icol*k + jj) 0 =
              if jj = icol then 1 else m.getD (icol*k + jj) 0 := by
          intro jj hjj
          by_cases hji : jj = icol
          · rw [if_pos hji, hji]
            rw [List.getD_eq_getElem?_getD, List.getElem?_set_self (by rw [hlen]; nlinarith)]
            rfl
          · rw [if_neg hji]
            rw [List.getD_eq_getElem?_getD,
              List.getElem?_set_ne (show icol*k + icol ≠ icol*k + jj by omega),
              ← List.getD_eq_getElem?_getD]
        by_cases hri : r = icol
        · rw [hri]
          rw [if_pos (show icol*k ≤ icol*k + j ∧ icol*k + j < icol*k + k by omega)]
          rw [if_pos rfl, hbase j hj]
        · have hnr : ¬ (icol*k ≤ r*k + j ∧ r*k + j < icol*k + k) := by
            intro ⟨ha, hb⟩
            have h3 : r*k + j = icol*k + (r*k + j - icol*k) := by omega
            have h4 : r*k + j - icol*k < k := by omega
            obtain ⟨he1, _⟩ := (rowcol_inj hj h4).mp h3
            exact hri he1
          rw [if_neg hnr, if_neg hri]
          rw [List.getD_eq_getElem?_getD,
            List.getElem?_set_ne (by rw [Ne, rowcol_inj hic hj]; omega),
            ← List.getD_eq_getElem?_getD]

theorem elimRow_fold_getD (m : List Nat) (k i icol cc : Nat)
    (hik : i < k) (_hick : icol < k) (hne : i ≠ icol) (hlen : m.length = k*k) :
    ∀ (cnt : Nat), cnt ≤ k → ∀ x,
      ((List.range cnt).foldl
        (fun mm2 j => mm2.set (i*k + j)
          ((mm2.getD (i*k + j) 0) ^^^ gf_mul cc (mm2.getD (icol*k + j) 0))) m).getD x 0 =
      if i*k ≤ x ∧ x < i*k + cnt then
        (m.getD x 0) ^^^ gf_mul cc (m.getD (icol*k + (x - i*k)) 0)
      else m.getD x 0 := by
  intro cnt
  induction cnt with
  | zero =>
    intro _ x
    rw [if_neg (by omega)]
    rfl
  | succ cnt ih =>
    intro hcnt x
    rw [List.range_succ, List.foldl_append, List.foldl_cons, List.foldl_nil]
    have hlenF : ((List.range cnt).foldl
        (fun mm2 j => mm2.set (i*k + j)
          ((mm2.getD (i*k + j) 0) ^^^ gf_mul cc (mm2.getD (icol*k + j) 0))) m).length = k*k := by
      rw [foldl_length _ _ (fun m x => List.length_set m _ _) m, hlen]
    have hcur : ((List.range cnt).foldl
        (fun mm2 j => mm2.set (i*k + j)
          ((mm2.getD (i*k + j) 0) ^^^ gf_mul cc (mm2.getD (icol*k + j) 0))) m).getD
          (i*k + cnt) 0 = m.getD (i*k + cnt) 0 := by
      rw [ih (by omega) (i*k + cnt), if_neg (by omega)]
    have hpiv : ((List.range cnt).foldl
        (fun mm2 j => mm2.set (i*k + j)
          ((mm2.getD (i*k + j) 0) ^^^ gf_mul cc (mm2.getD (icol*k + j) 0))) m).getD
          (icol*k + cnt) 0 = m.getD (icol*k + cnt) 0 := by
      rw [ih (by omega) (icol*k + cnt)]
      rw [if_neg ?hne1]
      case hne1 =>
        intro ⟨ha, hb⟩
        have h3 : icol*k + cnt = i*k + (icol*k + cnt - i*k) := by omega
        have h4 : icol*k + cnt - i*k < k := by omega
        obtain ⟨he1, _⟩ := (rowcol_inj (show cnt < k by omega) h4).mp h3
        exact hne he1.symm
    by_cases hx : x = i*k + cnt
    · subst hx
      rw [List.getD_eq_getElem?_getD, List.getElem?_set_self (by rw [hlenF]; nlinarith)]
      rw [hcur, hpiv]
      rw [if_pos (by omega)]
      have : i*k + cnt - i*k = cnt := by omega
      rw [this]
      rfl
    · rw [List.getD_eq_getElem?_getD, List.getElem?_set_ne (fun h => hx h.symm),
        ← List.getD_eq_getElem?_getD]
      rw [ih (by omega) x]
      by_cases hr : i*k ≤ x ∧ x < i*k + cnt
      · rw [if_pos hr, if_pos (by omega)]
      · rw [if_neg hr, if_neg (by omega)]

/-- One row-update of the elimination pass, as a function. -/
def elimRowNew (m : List Nat) (k icol i j : Nat) : Nat :=
  (if j = icol then 0 else m.getD (i*k + j) 0)
    ^^^ gf_mul (m.getD (i*k + icol) 0) (m.getD (icol*k + j) 0)

/-- Net effect of the elimination pass: row `icol` is untouched; every
other row `r` becomes `(row_r with entry icol zeroed) ⊕ c_r · row_icol`
with `c_r` the old entry `m[r][icol]`. -/
theorem gjEliminate_getD (m : List Nat) (k icol : Nat)
    (hick : icol < k) (hlen : m.length = k*k) :
    ∀ (cnt : Nat), cnt ≤ k → ∀ r j, r < k → j < k →
      ((List.range cnt).foldl (fun mm i =>
        if i ≠ icol then
          let cc := mm.getD (i*k + icol) 0
          let mm1 := mm.set (i*k + icol) 0
          if cc = 0 then mm1
          else (List.range k).foldl (fun mm2 j =>
            mm2.set (i*k + j) ((mm2.getD (i*k + j) 0) ^^^ gf_mul cc (mm2.getD (icol*k + j) 0))) mm1
        else mm) m).getD (r*k + j) 0 =
      if r < cnt ∧ r ≠ icol then elimRowNew m k icol r j
      else m.getD (r*k + j) 0 := by
  intro cnt
  induction cnt with
  | zero =>
    intro _ r j hr hj
    rw [if_neg (by omega)]
    rfl
  | succ cnt ih =>
    intro hcnt r j hr hj
    rw [List.range_succ, List.foldl_append, List.foldl_cons, List.foldl_nil]
    set F := (List.range cnt).foldl (fun mm i =>
        if i ≠ icol then
          let cc := mm.getD (i*k + icol) 0
          let mm1 := mm.set (i*k + icol) 0
          if cc = 0 then mm1
          else (List.range k).foldl (fun mm2 j =>
            mm2.set (i*k + j) ((mm2.getD (i*k + j) 0) ^^^ gf_mul cc (mm2.getD (icol*k + j) 0))) mm1
        else mm) m with hF
    have hlenF : F.length = k*k := by
      rw [hF]
      rw [foldl_length _ _ ?hstep m, hlen]
      case hstep =>
        intro mm x
        by_cases hx : x ≠ icol
        · rw [if_pos hx]
          dsimp only
          by_cases hc : mm.getD (x*k + icol) 0 = 0
          · rw [if_pos hc, List.length_set]
          · rw [if_neg hc]
            rw [foldl_length _ _ (fun m y => List.length_set m _ _), List.length_set]
        · rw [if_neg hx]
    by_cases hcnticol : cnt ≠ icol
    · rw [if_pos hcnticol]
      dsimp only
      -- values of row cnt and row icol in F are still those of m
      have hrowcnt : ∀ jj, jj < k → F.getD (cnt*k + jj) 0 = m.getD (cnt*k + jj) 0 := by
        intro jj hjj
        rw [hF, ih (by omega) cnt jj (by omega) hjj, if_neg (by omega)]
      have hrowicol : ∀ jj, jj < k → F.getD (icol*k + jj) 0 = m.getD (icol*k + jj) 0 := by
        intro jj hjj
        rw [hF, ih (by omega) icol jj hick hjj, if_neg (by omega)]
      have hcc : F.getD (cnt*k + icol) 0 = m.getD (cnt*k + icol) 0 := hrowcnt icol hick
      -- characterize mm1 = F.set (cnt*k + icol) 0
      have hmm1 : ∀ rr jj, rr < k → jj < k →
          (F.set (cnt*k + icol) 0).getD (rr*k + jj) 0 =
            if rr = cnt ∧ jj = icol then 0 else F.getD (rr*k + jj) 0 := by
        intro rr jj hrr hjj
        by_cases hx : rr*k + jj = cnt*k + icol
        · obtain ⟨h1, h2⟩ := (rowcol_inj hjj hick).mp hx
          rw [if_pos ⟨h1, h2⟩, hx]
          rw [List.getD_eq_getElem?_getD, List.getElem?_set_self (by rw [hlenF]; nlinarith)]
          rfl
        · rw [if_neg (by
            intro ⟨h1, h2⟩
            exact hx (by rw [h1, h2]))]
          rw [List.getD_eq_getElem?_getD, List.getElem?_set_ne (fun h => hx h.symm),
            ← List.getD_eq_getElem?_getD]
      have hlen1 : (F.set (cnt*k + icol) (0:Nat)).length = k*k := by
        rw [List.length_set, hlenF]
      by_cases hc : F.getD (cnt*k + icol) 0 = 0
      · rw [if_pos hc]
        rw [hmm1 r j hr hj]
        by_cases hrc : r = cnt
        · rw [if_pos (show r < cnt + 1 ∧ r ≠ icol by omega)]
          have hm0 : m.getD (cnt*k + icol) 0 = 0 := by rw [← hcc]; exact hc
          have hrhs : elimRowNew m k icol r j
              = if j = icol then 0 else m.getD (cnt*k + j) 0 := by
            rw [elimRowNew, hrc, hm0, gf_mul_zero_left, Nat.xor_zero]
          rw [hrhs]
          by_cases hji : j = icol
          · rw [if_pos ⟨hrc, hji⟩, if_pos hji]
          · rw [if_neg (by intro ⟨_, hb⟩; exact hji hb), if_neg hji, hrc, hrowcnt j hj]
        · rw [if_neg (by intro ⟨ha, _⟩; exact hrc ha)]
          rw [hF, ih (by omega) r j hr hj]
          by_cases hcond : r < cnt ∧ r ≠ icol
          · rw [if_pos hcond, if_pos (by omega)]
          · rw [if_neg hcond, if_neg (by omega)]
      · rw [if_neg hc]
        rw [elimRow_fold_getD _ k cnt icol _ (by omega) hick hcnticol hlen1 k (le_refl k) (r*k + j)]
        by_cases hrc : r = cnt
        · rw [if_pos (show cnt*k ≤ r*k + j ∧ r*k + j < cnt*k + k by rw [hrc]; omega)]
          have he1 : r*k + j - cnt*k = j := by rw [hrc]; omega
          rw [he1]
          rw [hmm1 r j hr hj, hmm1 icol j hick hj]
          rw [if_neg (show ¬ (icol = cnt ∧ j = icol) by
            intro ⟨ha, _⟩
            exact hcnticol ha.symm)]
          rw [hrowicol j hj]
          rw [if_pos (show r < cnt + 1 ∧ r ≠ icol by omega)]
          have hrhs : elimRowNew m k icol r j
              = (if j = icol then 0 else m.getD (cnt*k + j) 0)
                  ^^^ gf_mul (m.getD (cnt*k + icol) 0) (m.getD (icol*k + j) 0) := by
            rw [elimRowNew, hrc]
          rw [hrhs, hcc]
          by_cases hji : j = icol
          · rw [if_pos ⟨hrc, hji⟩, if_pos hji]
          · rw [if_neg (by intro ⟨_, hb⟩; exact hji hb), if_neg hji, hrc, hrowcnt j hj]
        · rw [if_neg (by
            intro ⟨ha, hb⟩
            have h3 : r*k + j = cnt*k + (r*k + j - cnt*k) := by omega
            have h4 : r*k + j - cnt*k < k := by omega
            obtain ⟨he1, _⟩ := (rowcol_inj hj h4).mp h3
            exact hrc he1)]
          rw [hmm1 r j hr hj, if_neg (by intro ⟨ha, _⟩; exact hrc ha)]
          rw [hF, ih (by omega) r j hr hj]
          by_cases hcond : r < cnt ∧ r ≠ icol
          · rw [if_pos hcond, if_pos (by omega)]
          · rw [if_neg hcond, if_neg (by omega)]
    · rw [if_neg hcnticol]
      rw [hF, ih (by omega) r j hr hj]
      have hceq : cnt = icol := not_not.mp hcnticol
      by_cases hcond : r < cnt ∧ r ≠ icol
      · rw [if_pos hcond, if_pos (by omega)]
      · rw [if_neg hcond, if_neg (by omega)]

/-! ## Pivot search: success properties and error classification -/

theorem gjScanIx_some (m ipiv : List Nat) (k row : Nat) :
    ∀ (d ix c : Nat), k - ix ≤ d → gjScanIx m ipiv k row ix = .ok (some c) →
      c < k ∧ ipiv.getD c 0 = 0 ∧ m.getD (row*k + c) 0 ≠ 0 := by
  intro d
  induction d with
  | zero =>
    intro ix c hd h
    rw [gjScanIx, if_neg (by omega)] at h
    simp at h
  | succ d ih =>
    intro ix c hd h
    rw [gjScanIx] at h
    by_cases hix : ix < k
    · rw [if_pos hix] at h
      by_cases h0 : ipiv.getD ix 0 = 0
      · rw [if_pos h0] at h
        by_cases hm : m.getD (row*k + ix) 0 ≠ 0
        · rw [if_pos hm] at h
          have : c = ix := by
            cases h
            rfl
          subst this
          exact ⟨hix, h0, hm⟩
        · rw [if_neg hm] at h
          exact ih (ix+1) c (by omega) h
      · rw [if_neg h0] at h
        by_cases h1 : ipiv.getD ix 0 > 1
        · rw [if_pos h1] at h
          simp at h
        · rw [if_neg h1] at h
          exact ih (ix+1) c (by omega) h
    · rw [if_neg hix] at h
      simp at h

theorem gjScanIx_error (m ipiv : List Nat) (k row : Nat) :
    ∀ (d ix : Nat) (e : Err), k - ix ≤ d → gjScanIx m ipiv k row ix = .error e →
      e = .singularMatrix := by
  intro d
  induction d with
  | zero =>
    intro ix e hd h
    rw [gjScanIx, if_neg (by omega)] at h
    simp at h
  | succ d ih =>
    intro ix e hd h
    rw [gjScanIx] at h
    by_cases hix : ix < k
    · rw [if_pos hix] at h
      by_cases h0 : ipiv.getD ix 0 = 0
      · rw [if_pos h0] at h
        by_cases hm : m.getD (row*k + ix) 0 ≠ 0
        · rw [if_pos hm] at h
          simp at h
        · rw [if_neg hm] at h
          exact ih (ix+1) e (by omega) h
      · rw [if_neg h0] at h
        by_cases h1 : ipiv.getD ix 0 > 1
        · rw [if_pos h1] at h
          cases h
          rfl
        · rw [if_neg h1] at h
          exact ih (ix+1) e (by omega) h
    · rw [if_neg hix] at h
      simp at h

theorem gjScanRow_ok (m ipiv : List Nat) (k : Nat) :
    ∀ (d row irow icol : Nat), k - row ≤ d →
      gjScanRow m ipiv k row = .ok (irow, icol) →
      irow < k ∧ ipiv.getD irow 0 ≠ 1 ∧ icol < k ∧ ipiv.getD icol 0 = 0 ∧
        m.getD (irow*k + icol) 0 ≠ 0 := by
  intro d
  induction d with
  | zero =>
    intro row irow icol hd h
    rw [gjScanRow, if_neg (by omega)] at h
    simp at h
  | succ d ih =>
    intro row irow icol hd h
    rw [gjScanRow] at h
    by_cases hrow : row < k
    · rw [if_pos hrow] at h
      by_cases h1 : ipiv.getD row 0 ≠ 1
      · rw [if_pos h1] at h
        cases hscan : gjScanIx m ipiv k row 0 with
        | error e => rw [hscan] at h; simp at h
        | ok r =>
          cases r with
          | none =>
            rw [hscan] at h
            exact ih (row+1) irow icol (by omega) h
          | some c =>
            rw [hscan] at h
            have hic : irow = row ∧ icol = c := by
              cases h
              exact ⟨rfl, rfl⟩
            obtain ⟨hr1, hr2⟩ := hic
            subst hr1
            subst hr2
            obtain ⟨hck, hp0, hm⟩ := gjScanIx_some m ipiv k irow (k - 0) 0 icol (by omega) hscan
            exact ⟨hrow, h1, hck, hp0, hm⟩
      · rw [if_neg h1] at h
        exact ih (row+1) irow icol (by omega) h
    · rw [if_neg hrow] at h
      simp at h

theorem gjScanRow_error (m ipiv : List Nat) (k : Nat) :
    ∀ (d row : Nat) (e : Err), k - row ≤ d →
      gjScanRow m ipiv k row = .error e → e = .singularMatrix := by
  intro d
  induction d with
  | zero =>
    intro row e hd h
    rw [gjScanRow, if_neg (by omega)] at h
    cases h
    rfl
  | succ d ih =>
    intro row e hd h
    rw [gjScanRow] at h
    by_cases hrow : row < k
    · rw [if_pos hrow] at h
      by_cases h1 : ipiv.getD row 0 ≠ 1
      · rw [if_pos h1] at h
        cases hscan : gjScanIx m ipiv k row 0 with
        | error e2 =>
          rw [hscan] at h
          have he : e2 = e := by
            cases h
            rfl
          rw [he] at hscan
          exact gjScanIx_error m ipiv k row (k - 0) 0 e (by omega) hscan
        | ok r =>
          cases r with
          | none =>
            rw [hscan] at h
            exact ih (row+1) e (by omega) h
          | some c =>
            rw [hscan] at h
            simp at h
      · rw [if_neg h1] at h
        exact ih (row+1) e (by omega) h
    · rw [if_neg hrow] at h
      cases h
      rfl

theorem gjFindPivot_ok (m ipiv : List Nat) (k col : Nat) (hcol : col < k)
    (irow icol : Nat) (h : gjFindPivot m ipiv k col = .ok (irow, icol)) :
    irow < k ∧ icol < k ∧ ipiv.getD icol 0 ≠ 1 ∧ ipiv.getD irow 0 ≠ 1 ∧
      m.getD (irow*k + icol) 0 ≠ 0 := by
  rw [gjFindPivot] at h
  by_cases hdiag : ipiv.getD col 0 ≠ 1 ∧ m.getD (col*k + col) 0 ≠ 0
  · rw [if_pos hdiag] at h
    have : irow = col ∧ icol = col := by
      cases h
      exact ⟨rfl, rfl⟩
    obtain ⟨h1, h2⟩ := this
    subst h1
    subst h2
    exact ⟨hcol, hcol, hdiag.1, hdiag.1, hdiag.2⟩
  · rw [if_neg hdiag] at h
    obtain ⟨ha, hb, hc, hd, he⟩ := gjScanRow_ok m ipiv k (k - 0) 0 irow icol (by omega) h
    exact ⟨ha, hc, by omega, hb, he⟩

theorem gjFindPivot_error (m ipiv : List Nat) (k col : Nat) (e : Err)
    (h : gjFindPivot m ipiv k col = .error e) : e = .singularMatrix := by
  rw [gjFindPivot] at h
  by_cases hdiag : ipiv.getD col 0 ≠ 1 ∧ m.getD (col*k + col) 0 ≠ 0
  · rw [if_pos hdiag] at h
    simp at h
  · rw [if_neg hdiag] at h
    exact gjScanRow_error m ipiv k (k - 0) 0 e (by omega) h

theorem gjNormalize_error (m : List Nat) (k icol : Nat) (e : Err)
    (h : gjNormalize m k icol = .error e) : e = .singularMatrix := by
  rw [gjNormalize] at h
  by_cases hc0 : m.getD (icol*k + icol) 0 = 0
  · rw [if_pos hc0] at h
    cases h
    rfl
  · rw [if_neg hc0] at h
    by_cases hc1 : m.getD (icol*k + icol) 0 ≠ 1
    · rw [if_pos hc1] at h
      simp at h
    · rw [if_neg hc1] at h
      simp at h

/-! ## The doomed-state invariant of Gauss-Jordan -/

theorem xor_byte_lt {a b : Nat} (ha : a < 256) (hb : b < 256) : a ^^^ b < 256 :=
  @Nat.xor_lt_two_pow a b 8 ha hb

theorem getD_oob (l : List Nat) (x : Nat) (h : l.length ≤ x) : l.getD x 0 = 0 := by
  rw [List.getD_eq_getElem?_getD, List.getElem?_eq_none h]
  rfl

theorem idx_decomp {k x : Nat} (hk : 0 < k) (hx : x < k*k) :
    x = (x / k)*k + x % k ∧ x / k < k ∧ x % k < k := by
  have h1 := Nat.div_add_mod x k
  have h2 : x % k < k := Nat.mod_lt x hk
  have h3 : x / k < k := by
    by_contra hc
    have : k ≤ x / k := by omega
    have h4 : k*k ≤ k*(x/k) := Nat.mul_le_mul_left k this
    omega
  have hcomm : (x / k)*k = k*(x / k) := Nat.mul_comm _ _
  exact ⟨by omega, h3, h2⟩

/-- Well-formedness of the Gauss-Jordan state after `t` completed pivot
steps: sizes, byte-valued entries, 0/1 pivot marks, exactly `t` marks. -/
def GJInv (k t : Nat) (m ipiv : List Nat) : Prop :=
  m.length = k*k ∧ ipiv.length = k ∧
  (∀ x, m.getD x 0 < 256) ∧
  (∀ p, ipiv.getD p 0 = 0 ∨ ipiv.getD p 0 = 1) ∧
  ((Finset.range k).filter (fun p => ipiv.getD p 0 = 1)).card = t

/-- The doomed configurations: two equal rows at unmarked positions, or an
unmarked row equal to the unit vector of an already-pivoted column. -/
def BadRows (k : Nat) (m ipiv : List Nat) : Prop :=
  (∃ p q, p < k ∧ q < k ∧ p ≠ q ∧ ipiv.getD p 0 ≠ 1 ∧ ipiv.getD q 0 ≠ 1 ∧
    (∀ j, j < k → m.getD (p*k + j) 0 = m.getD (q*k + j) 0))
  ∨ (∃ p c, p < k ∧ c < k ∧ ipiv.getD p 0 ≠ 1 ∧ ipiv.getD c 0 = 1 ∧
    (∀ j, j < k → m.getD (p*k + j) 0 = if j = c then 1 else 0))

theorem isUnitRow_true_iff (m : List Nat) (k icol : Nat) :
    isUnitRow m k icol = true ↔
      ∀ j, j < k → m.getD (icol*k + j) 0 = if j = icol then 1 else 0 := by
  rw [isUnitRow, List.all_eq_true]
  constructor
  · intro h j hj
    have := h j (List.mem_range.mpr hj)
    simpa using this
  · intro h j hj
    rw [List.mem_range] at hj
    simpa using h j hj

/-- Effects of normalisation followed by the (possibly skipped) elimination
pass: equal rows stay equal, a foreign unit row survives, and any copy of
the pivot row becomes the unit vector `e_icol`; entries stay bytes. -/
theorem gjAfterPivot (m1 m2 m3 : List Nat) (k icol : Nat) (hic : icol < k)
    (hlen : m1.length = k*k) (hbytes : ∀ x, m1.getD x 0 < 256)
    (hnorm : gjNormalize m1 k icol = .ok m2)
    (hm3 : m3 = if isUnitRow m2 k icol then m2 else gjEliminate m2 k icol) :
    (∀ r s, r < k → s < k → r ≠ icol → s ≠ icol →
      (∀ j, j < k → m1.getD (r*k + j) 0 = m1.getD (s*k + j) 0) →
      ∀ j, j < k → m3.getD (r*k + j) 0 = m3.getD (s*k + j) 0)
    ∧ (∀ r c, r < k → c < k → r ≠ icol → c ≠ icol →
      (∀ j, j < k → m1.getD (r*k + j) 0 = if j = c then 1 else 0) →
      ∀ j, j < k → m3.getD (r*k + j) 0 = if j = c then 1 else 0)
    ∧ (∀ r, r < k → r ≠ icol →
      (∀ j, j < k → m1.getD (r*k + j) 0 = m1.getD (icol*k + j) 0) →
      ∀ j, j < k → m3.getD (r*k + j) 0 = if j = icol then 1 else 0)
    ∧ (∀ x, m3.getD x 0 < 256)
    ∧ m3.length = k*k := by
  obtain ⟨hc0, hlen2, hcases⟩ := gjNormalize_ok_getD m1 k icol hic hlen m2 hnorm
  have hk0 : 0 < k := by omega
  set c0 := m1.getD (icol*k + icol) 0 with hc0def
  have hm2row : ∀ r j, r < k → j < k → r ≠ icol →
      m2.getD (r*k + j) 0 = m1.getD (r*k + j) 0 := by
    intro r j hr hj hri
    rcases hcases with ⟨_, hm⟩ | ⟨_, hget⟩
    · rw [hm]
    · rw [hget r j hr hj, if_neg hri]
  have hm2piv : ∀ j, j < k → m2.getD (icol*k + j) 0 =
      if c0 = 1 then m1.getD (icol*k + j) 0
      else gf_mul (gf_inverse c0) (if j = icol then 1 else m1.getD (icol*k + j) 0) := by
    intro j hj
    rcases hcases with ⟨h1, hm⟩ | ⟨h1, hget⟩
    · rw [if_pos h1, hm]
    · rw [if_neg h1, hget icol j hic hj, if_pos rfl]
  have hm2bytes : ∀ x, m2.getD x 0 < 256 := by
    intro x
    by_cases hx : x < k*k
    · obtain ⟨hde, hdq, hdr⟩ := idx_decomp hk0 hx
      rw [hde]
      by_cases hri : x / k = icol
      · rw [hri, hm2piv (x % k) hdr]
        by_cases h1 : c0 = 1
        · rw [if_pos h1]; exact hbytes _
        · rw [if_neg h1]; exact gf_mul_lt _ _
      · rw [hm2row _ _ hdq hdr hri]; exact hbytes _
    · rw [getD_oob _ _ (by omega)]; omega
  have hkill : ∀ j, j < k →
      ((if j = icol then 0 else m1.getD (icol*k + j) 0)
        ^^^ gf_mul c0 (m2.getD (icol*k + j) 0)) = if j = icol then 1 else 0 := by
    intro j hj
    rw [hm2piv j hj]
    have hc0lt : c0 < 256 := hbytes _
    by_cases h1 : c0 = 1
    · rw [if_pos h1, h1]
      by_cases hji : j = icol
      · rw [if_pos hji, if_pos hji, hji]
        rw [gf_mul_one_left _ (hbytes _), ← hc0def, h1]
        rfl
      · rw [if_neg hji, if_neg hji]
        rw [gf_mul_one_left _ (hbytes _), Nat.xor_self]
    · rw [if_neg h1]
      by_cases hji : j = icol
      · rw [if_pos hji, if_pos hji, if_pos hji]
        rw [gf_mul_inv_mul_cancel c0 1 (by omega) hc0lt (by omega)]
        decide
      · rw [if_neg hji, if_neg hji, if_neg hji]
        rw [gf_mul_inv_mul_cancel c0 _ (by omega) hc0lt (hbytes _), Nat.xor_self]
  by_cases hunit : isUnitRow m2 k icol
  · rw [if_pos hunit] at hm3
    rw [hm3]
    have hunitrow := (isUnitRow_true_iff m2 k icol).mp hunit
    have hc01 : c0 = 1 := by
      by_contra hc1
      have := hunitrow icol hic
      rw [if_pos rfl, hm2piv icol hic, if_neg hc1, if_pos rfl] at this
      have hinv := gf_inverse_ne_one c0 (hbytes _) (by omega) hc1
      rw [gf_mul_one_right _ ((gf_inverse_spec c0 (by omega) (hbytes _)).2.2)] at this
      exact hinv this
    have hm2m1 : m2 = m1 := by
      rcases hcases with ⟨_, hm⟩ | ⟨h1, _⟩
      · exact hm
      · exact absurd hc01 h1
    subst hm2m1
    refine ⟨?_, ?_, ?_, hm2bytes, hlen2⟩
    · intro r s hr hs hri hsi hrows j hj
      exact hrows j hj
    · intro r c hr hc hri hci hrow j hj
      exact hrow j hj
    · intro r hr hri hrow j hj
      rw [hrow j hj]
      exact hunitrow j hj
  · rw [if_neg hunit] at hm3
    rw [hm3]
    have helim : ∀ r j, r < k → j < k →
        (gjEliminate m2 k icol).getD (r*k + j) 0 =
          if r ≠ icol then
            ((if j = icol then 0 else m2.getD (r*k + j) 0)
              ^^^ gf_mul (m2.getD (r*k + icol) 0) (m2.getD (icol*k + j) 0))
          else m2.getD (r*k + j) 0 := by
      intro r j hr hj
      have h := gjEliminate_getD m2 k icol hic hlen2 k (le_refl k) r j hr hj
      rw [show gjEliminate m2 k icol = (List.range k).foldl (fun mm i =>
        if i ≠ icol then
          let cc := mm.getD (i*k + icol) 0
          let mm1 := mm.set (i*k + icol) 0
          if cc = 0 then mm1
          else (List.range k).foldl (fun mm2 j =>
            mm2.set (i*k + j) ((mm2.getD (i*k + j) 0) ^^^ gf_mul cc (mm2.getD (icol*k + j) 0))) mm1
        else mm) m2 from rfl]
      rw [h]
      by_cases hri : r ≠ icol
      · rw [if_pos (by omega : r < k ∧ r ≠ icol), if_pos hri, elimRowNew]
      · rw [if_neg (by omega), if_neg hri]
    have hlen3 : (gjEliminate m2 k icol).length = k*k := by
      rw [gjEliminate]
      rw [foldl_length _ _ ?hstep m2, hlen2]
      case hstep =>
        intro mm x
        by_cases hx : x ≠ icol
        · rw [if_pos hx]
          dsimp only
          by_cases hcz : mm.getD (x*k + icol) 0 = 0
          · rw [if_pos hcz, List.length_set]
          · rw [if_neg hcz]
            rw [foldl_length _ _ (fun m y => List.length_set m _ _), List.length_set]
        · rw [if_neg hx]
    refine ⟨?_, ?_, ?_, ?_, hlen3⟩
    · intro r s hr hs hri hsi hrows j hj
      rw [helim r j hr hj, helim s j hs hj, if_pos hri, if_pos hsi]
      rw [hm2row r j hr hj hri, hm2row s j hs hj hsi,
        hm2row r icol hr hic hri, hm2row s icol hs hic hsi]
      rw [hrows j hj, hrows icol hic]
    · intro r c hr hc hri hci hrow j hj
      rw [helim r j hr hj, if_pos hri]
      rw [hm2row r j hr hj hri, hm2row r icol hr hic hri]
      rw [hrow icol hic, if_neg (show ¬ (icol = c) from fun h => hci h.symm),
        gf_mul_zero_left, Nat.xor_zero]
      rw [hrow j hj]
      by_cases hji : j = icol
      · rw [if_pos hji, if_neg (by omega : ¬ j = c)]
      · rw [if_neg hji]
    · intro r hr hri hrow j hj
      rw [helim r j hr hj, if_pos hri]
      rw [hm2row r j hr hj hri, hm2row r icol hr hic hri]
      rw [hrow icol hic, hrow j hj]
      exact hkill j hj
    · intro x
      by_cases hx : x < k*k
      · obtain ⟨hde, hdq, hdr⟩ := idx_decomp hk0 hx
        rw [hde, helim _ _ hdq hdr]
        by_cases hri : x / k ≠ icol
        · rw [if_pos hri]
          refine xor_byte_lt ?_ (gf_mul_lt _ _)
          by_cases hji : x % k = icol
          · rw [if_pos hji]; omega
          · rw [if_neg hji]; exact hm2bytes _
        · rw [if_neg hri]; exact hm2bytes _
      · rw [getD_oob _ _ (by omega)]; omega

/-- The position transposition performed by the row swap of a pivot step. -/
def tauSwap (irow icol r : Nat) : Nat :=
  if r = irow then icol else if r = icol then irow else r

theorem tauSwap_lt {k irow icol : Nat} (hir : irow < k) (hic : icol < k)
    (r : Nat) (hr : r < k) : tauSwap irow icol r < k := by
  unfold tauSwap
  split_ifs <;> omega

theorem tauSwap_invol (irow icol r : Nat) :
    tauSwap irow icol (tauSwap irow icol r) = r := by
  unfold tauSwap
  split_ifs <;> omega

theorem tauSwap_icol (irow icol : Nat) : tauSwap irow icol icol = irow := by
  unfold tauSwap
  split_ifs <;> omega

theorem tauSwap_ne_icol (irow icol r : Nat) (h : r ≠ irow) :
    tauSwap irow icol r ≠ icol := by
  unfold tauSwap
  split_ifs <;> omega

/-- One pivot step on a doomed well-formed state either fails with
SingularMatrix or yields a doomed well-formed state with one more mark. -/
theorem gjStep_preserves (k t col : Nat) (m ipiv ixr ixc : List Nat)
    (hcol : col < k) (hwf : GJInv k t m ipiv) (hbad : BadRows k m ipiv) :
    gjStep k (m, ipiv, ixr, ixc) col = .error .singularMatrix
    ∨ ∃ m3 ipiv2 ixr2 ixc2,
        gjStep k (m, ipiv, ixr, ixc) col = .ok (m3, ipiv2, ixr2, ixc2)
          ∧ GJInv k (t+1) m3 ipiv2 ∧ BadRows k m3 ipiv2 := by
  obtain ⟨hmlen, hplen, hbytes, hp01, hcard⟩ := hwf
  rw [gjStep]
  dsimp only
  cases hfp : gjFindPivot m ipiv k col with
  | error e =>
    left
    rw [gjFindPivot_error m ipiv k col e hfp]
  | ok rc =>
    obtain ⟨irow, icol⟩ := rc
    obtain ⟨hirk, hick, hpic, hpir, hmne⟩ := gjFindPivot_ok m ipiv k col hcol irow icol hfp
    have hpic0 : ipiv.getD icol 0 = 0 := by
      rcases hp01 icol with h | h
      · exact h
      · exact absurd h hpic
    dsimp only
    have hm1len : (if irow ≠ icol then rowSwap m k irow icol else m).length = k*k := by
      by_cases hir : irow ≠ icol
      · rw [if_pos hir, length_rowSwap, hmlen]
      · rw [if_neg hir, hmlen]
    have hm1get : ∀ r j, r < k → j < k →
        (if irow ≠ icol then rowSwap m k irow icol else m).getD (r*k + j) 0 =
          m.getD (tauSwap irow icol r * k + j) 0 := by
      intro r j hr hj
      by_cases hir : irow ≠ icol
      · rw [if_pos hir, rowSwap_getD m k irow icol hirk hick hmlen hir r j hr hj]
        rfl
      · rw [if_neg hir]
        have hieq : irow = icol := not_not.mp hir
        have htau : tauSwap irow icol r = r := by
          unfold tauSwap
          split_ifs <;> omega
        rw [htau]
    have hm1bytes : ∀ x,
        (if irow ≠ icol then rowSwap m k irow icol else m).getD x 0 < 256 := by
      intro x
      by_cases hx : x < k*k
      · obtain ⟨hde, hdq, hdr⟩ := idx_decomp (by omega) hx
        rw [hde, hm1get _ _ hdq hdr]
        exact hbytes _
      · rw [getD_oob _ _ (by omega)]
        omega
    cases hnorm : gjNormalize (if irow ≠ icol then rowSwap m k irow icol else m) k icol with
    | error e =>
      left
      dsimp only
      rw [gjNormalize_error _ _ _ e hnorm]
    | ok m2 =>
      right
      dsimp only
      obtain ⟨hK1, hK2, hK3, hm3bytes, hm3len⟩ :=
        gjAfterPivot (if irow ≠ icol then rowSwap m k irow icol else m) m2
          (if isUnitRow m2 k icol then m2 else gjEliminate m2 k icol) k icol hick
          hm1len hm1bytes hnorm rfl
      have hpiv2get : ∀ p, (ipiv.set icol (ipiv.getD icol 0 + 1)).getD p 0 =
          if p = icol then 1 else ipiv.getD p 0 := by
        intro p
        by_cases hp : p = icol
        · rw [if_pos hp, hp, List.getD_eq_getElem?_getD,
            List.getElem?_set_self (by rw [hplen]; omega), hpic0]
          rfl
        · rw [if_neg hp, List.getD_eq_getElem?_getD,
            List.getElem?_set_ne (fun h => hp h.symm), ← List.getD_eq_getElem?_getD]
      have hrowm1 : ∀ p, p < k → ∀ j, j < k →
          (if irow ≠ icol then rowSwap m k irow icol else m).getD
            (tauSwap irow icol p * k + j) 0 = m.getD (p*k + j) 0 := by
        intro p hp j hj
        rw [hm1get _ _ (tauSwap_lt hirk hick p hp) hj, tauSwap_invol]
      have hm1icol : ∀ j, j < k →
          (if irow ≠ icol then rowSwap m k irow icol else m).getD (icol*k + j) 0 =
            m.getD (irow*k + j) 0 := by
        intro j hj
        rw [hm1get _ _ hick hj, tauSwap_icol]
      have htau_unmark : ∀ r, r < k → r ≠ irow → ipiv.getD r 0 ≠ 1 →
          ipiv.getD (tauSwap irow icol r) 0 ≠ 1 := by
        intro r hr hne hu
        unfold tauSwap
        split_ifs with h1 h2
        · exact absurd h1 hne
        · exact hpir
        · exact hu
      refine ⟨_, _, _, _, rfl, ?_, ?_⟩
      · refine ⟨hm3len, by rw [List.length_set, hplen], hm3bytes, ?_, ?_⟩
        · intro p
          rw [hpiv2get p]
          by_cases hp : p = icol
          · rw [if_pos hp]
            right
            rfl
          · rw [if_neg hp]
            exact hp01 p
        · have hfilter : (Finset.range k).filter
              (fun p => (ipiv.set icol (ipiv.getD icol 0 + 1)).getD p 0 = 1)
              = insert icol ((Finset.range k).filter (fun p => ipiv.getD p 0 = 1)) := by
            ext p
            simp only [Finset.mem_filter, Finset.mem_insert, Finset.mem_range]
            rw [hpiv2get p]
            constructor
            · intro ⟨hpk2, hval⟩
              by_cases hp : p = icol
              · exact Or.inl hp
              · rw [if_neg hp] at hval
                exact Or.inr ⟨hpk2, hval⟩
            · intro h
              rcases h with hp | ⟨hpk2, hval⟩
              · rw [if_pos hp]
                exact ⟨by omega, rfl⟩
              · by_cases hp : p = icol
                · rw [if_pos hp]
                  exact ⟨hpk2, rfl⟩
                · rw [if_neg hp]
                  exact ⟨hpk2, hval⟩
          have hnotmem : icol ∉ (Finset.range k).filter (fun p => ipiv.getD p 0 = 1) := by
            simp only [Finset.mem_filter, Finset.mem_range]
            intro ⟨_, hv⟩
            omega
          rw [hfilter, Finset.card_insert_of_not_mem hnotmem, hcard]
      · rcases hbad with ⟨p, q, hpk, hqk, hpq, hup, huq, hrows⟩ |
          ⟨p, c, hpk, hck, hup, hmc, hrow⟩
        · have hA2 : ∀ a b, irow = a → a < k → b < k → a ≠ b → ipiv.getD b 0 ≠ 1 →
              (∀ j, j < k → m.getD (a*k + j) 0 = m.getD (b*k + j) 0) →
              BadRows k (if isUnitRow m2 k icol then m2 else gjEliminate m2 k icol)
                (ipiv.set icol (ipiv.getD icol 0 + 1)) := by
            intro a b hia hak hbk hab hub hr
            have hbir : b ≠ irow := by omega
            have hb1k : tauSwap irow icol b < k := tauSwap_lt hirk hick b hbk
            have hb1icol : tauSwap irow icol b ≠ icol := tauSwap_ne_icol irow icol b hbir
            have hcopy : ∀ j, j < k →
                (if irow ≠ icol then rowSwap m k irow icol else m).getD
                  (tauSwap irow icol b * k + j) 0 =
                (if irow ≠ icol then rowSwap m k irow icol else m).getD (icol*k + j) 0 := by
              intro j hj
              rw [hrowm1 b hbk j hj, hm1icol j hj, hia]
              exact (hr j hj).symm
            right
            refine ⟨tauSwap irow icol b, icol, hb1k, hick, ?_, ?_, ?_⟩
            · rw [hpiv2get _, if_neg hb1icol]
              exact htau_unmark b hbk hbir hub
            · rw [hpiv2get _, if_pos rfl]
            · exact hK3 _ hb1k hb1icol hcopy
          by_cases hip : irow = p
          · exact hA2 p q hip hpk hqk hpq huq hrows
          · by_cases hiq : irow = q
            · exact hA2 q p hiq hqk hpk (by omega) hup (fun j hj => (hrows j hj).symm)
            · left
              have hpir2 : p ≠ irow := fun h => hip h.symm
              have hqir2 : q ≠ irow := fun h => hiq h.symm
              have hp1k := tauSwap_lt hirk hick p hpk
              have hq1k := tauSwap_lt hirk hick q hqk
              have hp1icol := tauSwap_ne_icol irow icol p hpir2
              have hq1icol := tauSwap_ne_icol irow icol q hqir2
              have hp1q1 : tauSwap irow icol p ≠ tauSwap irow icol q := by
                intro h
                have h2 := congrArg (tauSwap irow icol) h
                rw [tauSwap_invol, tauSwap_invol] at h2
                exact hpq h2
              refine ⟨_, _, hp1k, hq1k, hp1q1, ?_, ?_, ?_⟩
              · rw [hpiv2get _, if_neg hp1icol]
                exact htau_unmark p hpk hpir2 hup
              · rw [hpiv2get _, if_neg hq1icol]
                exact htau_unmark q hqk hqir2 huq
              · refine hK1 _ _ hp1k hq1k hp1icol hq1icol ?_
                intro j hj
                rw [hrowm1 p hpk j hj, hrowm1 q hqk j hj]
                exact hrows j hj
        · have hicne : icol ≠ c := by
            intro h
            rw [h] at hpic0
            omega
          have hirp : irow ≠ p := by
            intro h
            apply hmne
            rw [h, hrow icol hick, if_neg hicne]
          have hpir2 : p ≠ irow := fun h => hirp h.symm
          have hp1k := tauSwap_lt hirk hick p hpk
          have hp1icol := tauSwap_ne_icol irow icol p hpir2
          right
          refine ⟨tauSwap irow icol p, c, hp1k, hck, ?_, ?_, ?_⟩
          · rw [hpiv2get _, if_neg hp1icol]
            exact htau_unmark p hpk hpir2 hup
          · rw [hpiv2get _, if_neg (fun h => hicne h.symm)]
            exact hmc
          · refine hK2 _ c hp1k hck hp1icol (fun h => hicne h.symm) ?_
            intro j hj
            rw [hrowm1 p hpk j hj]
            exact hrow j hj

/-- Folding the pivot steps over a doomed state must fail: completing all
columns would mark all `k` positions, leaving no unmarked position for the
doomed witness. -/
theorem gjFold_err (k : Nat) :
    ∀ (cols : List Nat) (m ipiv ixr ixc : List Nat) (t : Nat),
      (∀ c ∈ cols, c < k) → GJInv k t m ipiv → BadRows k m ipiv →
      t + cols.length = k →
      cols.foldlM (gjStep k) (m, ipiv, ixr, ixc) = .error .singularMatrix := by
  intro cols
  induction cols with
  | nil =>
    intro m ipiv ixr ixc t hc hwf hbad hlen
    exfalso
    obtain ⟨hmlen, hplen, hbytes, hp01, hcard⟩ := hwf
    have hall : ∀ p, p < k → ipiv.getD p 0 = 1 := by
      have hsub : (Finset.range k).filter (fun p => ipiv.getD p 0 = 1) ⊆ Finset.range k :=
        Finset.filter_subset _ _
      have heq : (Finset.range k).filter (fun p => ipiv.getD p 0 = 1) = Finset.range k :=
        Finset.eq_of_subset_of_card_le hsub
          (by rw [hcard, Finset.card_range]; simp at hlen; omega)
      intro p hp
      have hmem : p ∈ (Finset.range k).filter (fun p => ipiv.getD p 0 = 1) := by
        rw [heq]
        exact Finset.mem_range.mpr hp
      simpa using (Finset.mem_filter.mp hmem).2
    rcases hbad with ⟨p, q, hpk, hqk, _, hup, _, _⟩ | ⟨p, c, hpk, _, hup, _, _⟩
    · exact hup (hall p hpk)
    · exact hup (hall p hpk)
  | cons a cols ih =>
    intro m ipiv ixr ixc t hc hwf hbad hlen
    rcases gjStep_preserves k t a m ipiv ixr ixc (hc a (List.mem_cons_self a cols)) hwf hbad
      with herr | ⟨m3, ipiv2, ixr2, ixc2, hok, hwf2, hbad2⟩
    · rw [List.foldlM_cons, herr]
      rfl
    · rw [List.foldlM_cons, hok]
      show cols.foldlM (gjStep k) (m3, ipiv2, ixr2, ixc2) = .error .singularMatrix
      exact ih m3 ipiv2 ixr2 ixc2 (t+1)
        (fun c hcmem => hc c (List.mem_cons_of_mem a hcmem)) hwf2 hbad2
        (by simp at hlen ⊢; omega)

theorem getD_replicate_zero (k x : Nat) : (List.replicate k (0:Nat)).getD x 0 = 0 := by
  rw [List.getD_eq_getElem?_getD, List.getElem?_replicate]
  by_cases h : x < k
  · rw [if_pos h]
    rfl
  · rw [if_neg h]
    rfl

/-- `invert_mat` always fails (with the singular-matrix error) on a byte
matrix containing two equal rows. -/
theorem invert_mat_equal_rows (k : Nat) (m : List Nat) (p q : Nat)
    (hlen : m.length = k*k) (hbytes : ∀ x, m.getD x 0 < 256)
    (hp : p < k) (hq : q < k) (hpq : p ≠ q)
    (heq : ∀ j, j < k → m.getD (p*k + j) 0 = m.getD (q*k + j) 0) :
    invert_mat m k = .error .singularMatrix := by
  have hrep : ∀ x, (List.replicate k (0:Nat)).getD x 0 = 0 := getD_replicate_zero k
  have hwf : GJInv k 0 m (List.replicate k 0) := by
    refine ⟨hlen, by simp, hbytes, ?_, ?_⟩
    · intro p2
      left
      exact hrep p2
    · have hempty : (Finset.range k).filter
          (fun p2 => (List.replicate k (0:Nat)).getD p2 0 = 1) = ∅ :=
        Finset.filter_false_of_mem (by
          intro p2 _
          rw [hrep]
          omega)
      rw [hempty, Finset.card_empty]
  have hbad : BadRows k m (List.replicate k 0) := by
    left
    refine ⟨p, q, hp, hq, hpq, ?_, ?_, heq⟩
    · rw [hrep]
      omega
    · rw [hrep]
      omega
  have hfold := gjFold_err k (List.range k) m (List.replicate k 0) (List.replicate k 0)
    (List.replicate k 0) 0 (fun c hcmem => List.mem_range.mp hcmem) hwf hbad (by simp)
  rw [invert_mat, hfold]

/-! ## C9: decode with duplicated parity indices -/

/-- A shuffle that returns success preserves an upper bound on the index
values: swaps only permute entries among the first `k` positions. -/
theorem shuffleAux_values (k n : Nat) :
    ∀ (fuel i : Nat) (idx : List Nat) (pkt : List (List Nat))
      (e : Bool) (idx2 : List Nat) (pkt2 : List (List Nat)) (s : Nat),
      idx.length = k →
      (∀ j, j < k → idx.getD j 0 < n) →
      shuffleAux k fuel i idx pkt = some (e, idx2, pkt2, s) →
      ∀ j, j < k → idx2.getD j 0 < n := by
  intro fuel
  induction fuel with
  | zero =>
    intro i idx pkt e idx2 pkt2 s _ _ heq
    simp [shuffleAux] at heq
  | succ fuel ih =>
    intro i idx pkt e idx2 pkt2 s hlen hvals heq
    rw [shuffleAux] at heq
    by_cases hi : i < k
    · rw [if_pos hi] at heq
      by_cases hadv : idx.getD i 0 ≥ k ∨ idx.getD i 0 = i
      · rw [if_pos hadv] at heq
        exact ih (i+1) idx pkt e idx2 pkt2 s hlen hvals heq
      · rw [if_neg hadv] at heq
        push_neg at hadv
        obtain ⟨hck, hci⟩ := hadv
        by_cases hcc : idx.getD (idx.getD i 0) 0 = idx.getD i 0
        · rw [if_pos hcc] at heq
          simp at heq
          obtain ⟨he, hidx, hpkt, hs⟩ := heq
          subst hidx
          exact hvals
        · rw [if_neg hcc] at heq
          cases hm : shuffleAux k fuel i (swapL idx i (idx.getD i 0))
              (swapL pkt i (idx.getD i 0)) with
          | none => rw [hm] at heq; simp at heq
          | some r =>
            obtain ⟨e1, idx1, pkt1, s1⟩ := r
            rw [hm] at heq
            simp at heq
            obtain ⟨he, hidx, hpkt, hs⟩ := heq
            subst he hidx hpkt
            have hicne : i ≠ idx.getD i 0 := fun h => hci h.symm
            refine ih i _ _ e1 idx1 pkt1 s1 (by rw [length_swapL, hlen]) ?_ hm
            intro j hj
            rw [getD_swapL idx j 0 (by omega) (by omega) hicne]
            by_cases h1 : j = idx.getD i 0
            · rw [if_pos h1]
              exact hvals i hi
            · rw [if_neg h1]
              by_cases h2 : j = i
              · rw [if_pos h2]
                exact hvals (idx.getD i 0) hck
              · rw [if_neg h2]
                exact hvals j hj
    · rw [if_neg hi] at heq
      simp at heq
      obtain ⟨he, hidx, hpkt, hs⟩ := heq
      subst hidx
      exact hvals

/-- If the shuffle loop exits through its conflict branch (`return 1`),
the index array it started from held some value `< k` at two distinct
positions below `k`. -/
theorem shuffleAux_conflict (k : Nat) :
    ∀ (fuel i : Nat) (idx : List Nat) (pkt : List (List Nat))
      (idx2 : List Nat) (pkt2 : List (List Nat)) (s : Nat),
      idx.length = k →
      shuffleAux k fuel i idx pkt = some (true, idx2, pkt2, s) →
      ∃ a b, a < k ∧ b < k ∧ a ≠ b ∧ idx.getD a 0 < k ∧
        idx.getD a 0 = idx.getD b 0 := by
  intro fuel
  induction fuel with
  | zero =>
    intro i idx pkt idx2 pkt2 s _ heq
    simp [shuffleAux] at heq
  | succ fuel ih =>
    intro i idx pkt idx2 pkt2 s hlen heq
    rw [shuffleAux] at heq
    by_cases hi : i < k
    · rw [if_pos hi] at heq
      by_cases hadv : idx.getD i 0 ≥ k ∨ idx.getD i 0 = i
      · rw [if_pos hadv] at heq
        exact ih (i+1) idx pkt idx2 pkt2 s hlen heq
      · rw [if_neg hadv] at heq
        push_neg at hadv
        obtain ⟨hck, hci⟩ := hadv
        by_cases hcc : idx.getD (idx.getD i 0) 0 = idx.getD i 0
        · refine ⟨i, idx.getD i 0, hi, hck, fun h => hci h.symm, hck, hcc.symm⟩
        · rw [if_neg hcc] at heq
          cases hm : shuffleAux k fuel i (swapL idx i (idx.getD i 0))
              (swapL pkt i (idx.getD i 0)) with
          | none => rw [hm] at heq; simp at heq
          | some r =>
            obtain ⟨e1, idx1, pkt1, s1⟩ := r
            rw [hm] at heq
            simp at heq
            obtain ⟨he, hidx, hpkt, hs⟩ := heq
            subst he hidx hpkt
            obtain ⟨a, b, ha, hb, hab, halt, habeq⟩ :=
              ih i _ _ idx1 pkt1 s1 (by rw [length_swapL, hlen]) hm
            have hicne : i ≠ idx.getD i 0 := fun h => hci h.symm
            have htrans : ∀ x2, (swapL idx i (idx.getD i 0)).getD x2 0 =
                idx.getD (if x2 = idx.getD i 0 then i
                  else if x2 = i then idx.getD i 0 else x2) 0 := by
              intro x2
              rw [getD_swapL idx x2 0 (by omega) (by omega) hicne]
              by_cases h1 : x2 = idx.getD i 0
              · rw [if_pos h1, if_pos h1]
              · rw [if_neg h1, if_neg h1]
                by_cases h2 : x2 = i
                · rw [if_pos h2, if_pos h2]
                · rw [if_neg h2, if_neg h2]
            rw [htrans a] at halt habeq
            rw [htrans b] at habeq
            refine ⟨if a = idx.getD i 0 then i else if a = i then idx.getD i 0 else a,
                    if b = idx.getD i 0 then i else if b = i then idx.getD i 0 else b,
                    ?_, ?_, ?_, halt, habeq⟩
            · split_ifs <;> omega
            · split_ifs <;> omega
            · intro h
              exact hab (swapFn_inj hci h)
    · rw [if_neg hi] at heq
      simp at heq

/-- `getD` of a map over `List.range`. -/
theorem map_range_getD (f : Nat → Nat) (k t : Nat) (h : t < k) :
    ((List.range k).map f).getD t 0 = f t := by
  rw [List.getD_eq_getElem?_getD, List.getElem?_map, List.getElem?_range h]
  rfl

theorem unitRowD_length (k i : Nat) : (unitRowD k i).length = k := by
  simp [unitRowD]

theorem unitRowD_getD (k i t : Nat) (h : t < k) :
    (unitRowD k i).getD t 0 = if t = i then 1 else 0 :=
  map_range_getD (fun j => if j = i then 1 else 0) k t h

theorem encRowD_length (k : Nat) (enc : List Nat) (v : Nat) :
    (encRowD k enc v).length = k := by
  simp [encRowD]

theorem encRowD_getD (k : Nat) (enc : List Nat) (v t : Nat) (h : t < k) :
    (encRowD k enc v).getD t 0 = enc.getD (v*k + t) 0 :=
  map_range_getD (fun j => enc.getD (v*k + j) 0) k t h

/-- Length of the flattening of a list of rows of equal length `k`. -/
theorem flatten_length (k : Nat) : ∀ (rows : List (List Nat)),
    (∀ t, t < rows.length → (rows.getD t []).length = k) →
    rows.flatten.length = rows.length * k := by
  intro rows
  induction rows with
  | nil => intro _; simp
  | cons x xs ihx =>
    intro hrl
    have hx : x.length = k := hrl 0 (by simp)
    have hxs : xs.flatten.length = xs.length * k :=
      ihx (fun t ht => hrl (t+1) (by simp; omega))
    simp only [List.flatten_cons, List.length_append, List.length_cons, hx, hxs]
    rw [Nat.succ_mul]
    omega

/-- Row-major indexing into the flattening of a list of equal-length rows. -/
theorem flatten_getD (k : Nat) : ∀ (rows : List (List Nat)),
    (∀ t, t < rows.length → (rows.getD t []).length = k) →
    ∀ r j, r < rows.length → j < k →
      rows.flatten.getD (r*k + j) 0 = (rows.getD r []).getD j 0 := by
  intro rows
  induction rows with
  | nil =>
    intro _ r j hr _
    simp at hr
  | cons x xs ihx =>
    intro hrl r j hr hj
    have hx : x.length = k := hrl 0 (by simp)
    cases r with
    | zero =>
      rw [Nat.zero_mul, Nat.zero_add, List.getD_cons_zero,
        List.flatten_cons, List.getD_eq_getElem?_getD,
        List.getElem?_append_left (by omega), ← List.getD_eq_getElem?_getD]
    | succ r =>
      have hdec : (r+1)*k + j - x.length = r*k + j := by
        rw [Nat.succ_mul]
        omega
      have hge : x.length ≤ (r+1)*k + j := by
        rw [Nat.succ_mul]
        omega
      rw [List.flatten_cons, List.getD_eq_getElem?_getD,
        List.getElem?_append_right hge, hdec, ← List.getD_eq_getElem?_getD,
        List.getD_cons_succ]
      exact ihx (fun t ht => hrl (t+1) (by simp; omega)) r j (by simp at hr; omega) hj

/-- The row loop of `build_decode_matrix` succeeds whenever every index
value is `< n`, and produces the expected rows: unit rows for source
indices, encoding-matrix rows for parity indices. -/
theorem buildRows_ok (k n : Nat) (enc index : List Nat) :
    ∀ (left i : Nat), i + left = k →
      (∀ j, j < k → index.getD j 0 < n) →
      ∃ rows, buildRows k n enc index left i = .ok rows ∧
        rows.length = left ∧
        ∀ t, t < left → rows.getD t [] =
          if index.getD (i+t) 0 < k then unitRowD k (i+t)
          else encRowD k enc (index.getD (i+t) 0) := by
  intro left
  induction left with
  | zero =>
    intro i _ _
    exact ⟨[], rfl, rfl, fun t ht => absurd ht (by omega)⟩
  | succ left ih =>
    intro i hik hvals
    have hi : i < k := by omega
    obtain ⟨rest, hrest, hrlen, hchar⟩ := ih (i+1) (by omega) hvals
    by_cases hidx : index.getD i 0 < k
    · refine ⟨unitRowD k i :: rest, ?_, by simp [hrlen], ?_⟩
      · rw [buildRows, if_pos hi, if_pos hidx, hrest]
      · intro t ht
        cases t with
        | zero =>
          simp only [Nat.add_zero, List.getD_cons_zero]
          rw [if_pos hidx]
        | succ t =>
          rw [List.getD_cons_succ, hchar t (by omega)]
          have harith : i + 1 + t = i + (t+1) := by omega
          rw [harith]
    · refine ⟨encRowD k enc (index.getD i 0) :: rest, ?_, by simp [hrlen], ?_⟩
      · rw [buildRows, if_pos hi, if_neg hidx, if_pos (hvals i hi), hrest]
      · intro t ht
        cases t with
        | zero =>
          simp only [Nat.add_zero, List.getD_cons_zero]
          rw [if_neg hidx]
        | succ t =>
          rw [List.getD_cons_succ, hchar t (by omega)]
          have harith : i + 1 + t = i + (t+1) := by omega
          rw [harith]

/-- C9 counterexample: with the real `k = 4, n = 8` encoding matrix, the
index array `[0,0,5,5]` holds the parity value `5` (with `4 ≤ 5 < 8`) at
the two distinct positions 2 and 3, exactly as the claim requires, yet
decode fails with `DuplicateIndex` (the duplicated source slot 0 is
detected first by the shuffle), not with `SingularMatrix`. -/
theorem decode_parity_dup_not_always_singular :
    fec_ctor 1000 4 8 = .ok [1,0,0,0, 0,1,0,0, 0,0,1,0, 0,0,0,1,
        119,64,56,14, 199,167,13,108, 83,2,111,63, 241,123,131,8]
      ∧ decode 100 4 8 [1,0,0,0, 0,1,0,0, 0,0,1,0, 0,0,0,1,
          119,64,56,14, 199,167,13,108, 83,2,111,63, 241,123,131,8]
          [[1],[2],[3],[4]] [0,0,5,5] 1 = .error .duplicateIndex
      ∧ Err.duplicateIndex ≠ Err.singularMatrix :=
  ⟨rfl, rfl, by decide⟩

/-- C9 amended: a decode whose index array (length `k`, values `< n`, byte
encoding matrix) holds a duplicated parity value `v` (`k ≤ v`) at two
distinct positions never succeeds: it fails with `DuplicateIndex` or
`SingularMatrix`, and when no value `< k` is duplicated the shuffle passes
and the verdict is exactly `SingularMatrix` (two equal rows make the
decode matrix singular). -/
theorem decode_parity_dup_fails (k n : Nat) (enc : List Nat)
    (pkt : List (List Nat)) (index : List Nat) (sz : Nat) (p q v : Nat)
    (hlen : index.length = k)
    (henc : ∀ x, x < n*k → enc.getD x 0 < 256)
    (hvals : ∀ j, j < k → index.getD j 0 < n)
    (hp : p < k) (hq : q < k) (hpq : p ≠ q)
    (hv : k ≤ v) (hvp : index.getD p 0 = v) (hvq : index.getD q 0 = v) :
    (decode (2*k+2) k n enc pkt index sz = .error .duplicateIndex
      ∨ decode (2*k+2) k n enc pkt index sz = .error .singularMatrix)
    ∧ ((∀ a b, a < k → b < k → a ≠ b → index.getD a 0 < k →
          index.getD a 0 ≠ index.getD b 0) →
        decode (2*k+2) k n enc pkt index sz = .error .singularMatrix) := by
  have hk : 0 < k := by omega
  have hterm : (shuffleAux k (2*k+2) 0 index pkt).isSome := by
    have hfc := fixedCount_le k index
    exact shuffleAux_terminates k (2*k+2) 0 index pkt hlen (by omega) (by omega)
  obtain ⟨⟨e, idx1, pkt1, s⟩, hs⟩ := Option.isSome_iff_exists.mp hterm
  cases e with
  | true =>
    have hdec : decode (2*k+2) k n enc pkt index sz = .error .duplicateIndex := by
      rw [decode, shuffle, hs]
    refine ⟨Or.inl hdec, ?_⟩
    intro hdist
    exfalso
    obtain ⟨a, b, ha, hb, hab, halt, habeq⟩ :=
      shuffleAux_conflict k (2*k+2) 0 index pkt idx1 pkt1 s hlen hs
    exact hdist a b ha hb hab halt habeq
  | false =>
    have hlens := shuffleAux_length k (2*k+2) 0 index pkt false idx1 pkt1 s hs
    have hlen1 : idx1.length = k := by rw [hlens.1, hlen]
    have hvals1 : ∀ j, j < k → idx1.getD j 0 < n :=
      shuffleAux_values k n (2*k+2) 0 index pkt false idx1 pkt1 s hlen hvals hs
    obtain ⟨p1, q1, hp1, hq1, hpq1, hvp1, hvq1⟩ :=
      shuffleAux_dup k v (2*k+2) 0 index pkt idx1 pkt1 s hlen
        ⟨p, q, hp, hq, hpq, hvp, hvq⟩ hs
    obtain ⟨rows, hrows, hrlen, hrchar⟩ :=
      buildRows_ok k n enc idx1 k 0 (by omega) hvals1
    simp only [Nat.zero_add] at hrchar
    have hrowlens : ∀ t, t < rows.length → (rows.getD t []).length = k := by
      intro t ht
      rw [hrlen] at ht
      rw [hrchar t ht]
      by_cases h : idx1.getD t 0 < k
      · rw [if_pos h, unitRowD_length]
      · rw [if_neg h, encRowD_length]
    have hflen : rows.flatten.length = k*k := by
      rw [flatten_length k rows hrowlens, hrlen]
    have hbytes : ∀ x, rows.flatten.getD x 0 < 256 := by
      intro x
      by_cases hx : x < k*k
      · obtain ⟨hxeq, hr, hj⟩ := idx_decomp hk hx
        rw [hxeq, flatten_getD k rows hrowlens (x / k) (x % k) (by omega) hj,
          hrchar (x / k) (by omega)]
        by_cases h : idx1.getD (x / k) 0 < k
        · rw [if_pos h, unitRowD_getD k (x / k) (x % k) hj]
          split_ifs <;> omega
        · rw [if_neg h, encRowD_getD k enc (idx1.getD (x / k) 0) (x % k) hj]
          refine henc _ ?_
          have hvn : idx1.getD (x / k) 0 < n := hvals1 (x / k) (by omega)
          have hstep : (idx1.getD (x / k) 0 + 1) * k ≤ n * k :=
            Nat.mul_le_mul_right k (by omega)
          rw [Nat.succ_mul] at hstep
          omega
      · rw [getD_oob]
        · omega
        · omega
    have heqrows : ∀ j2, j2 < k →
        rows.flatten.getD (p1*k + j2) 0 = rows.flatten.getD (q1*k + j2) 0 := by
      intro j2 hj2
      rw [flatten_getD k rows hrowlens p1 j2 (by omega) hj2,
        flatten_getD k rows hrowlens q1 j2 (by omega) hj2,
        hrchar p1 (by omega), hrchar q1 (by omega), hvp1, hvq1,
        if_neg (show ¬ v < k by omega), if_neg (show ¬ v < k by omega)]
    have hsing := invert_mat_equal_rows k rows.flatten p1 q1 hflen hbytes
      hp1 hq1 hpq1 heqrows
    have hbdm : build_decode_matrix k n enc idx1 = .error .singularMatrix := by
      rw [build_decode_matrix, hrows]
      exact hsing
    have hdec : decode (2*k+2) k n enc pkt index sz = .error .singularMatrix := by
      rw [decode, shuffle, hs]
      dsimp only
      rw [hbdm]
    exact ⟨Or.inr hdec, fun _ => hdec⟩

/-- Witness for C9 (amended) at `k = 4, n = 8` with the real encoding
matrix, index `[0,1,5,5]`: parity value 5 duplicated, sources distinct. -/
theorem decode_parity_dup_fails_witness :
    (decode (2*4+2) 4 8 [1,0,0,0, 0,1,0,0, 0,0,1,0, 0,0,0,1,
        119,64,56,14, 199,167,13,108, 83,2,111,63, 241,123,131,8]
        [[1],[2],[3],[4]] [0,1,5,5] 1 = .error .duplicateIndex
      ∨ decode (2*4+2) 4 8 [1,0,0,0, 0,1,0,0, 0,0,1,0, 0,0,0,1,
          119,64,56,14, 199,167,13,108, 83,2,111,63, 241,123,131,8]
          [[1],[2],[3],[4]] [0,1,5,5] 1 = .error .singularMatrix)
    ∧ ((∀ a b, a < 4 → b < 4 → a ≠ b → ([0,1,5,5] : List Nat).getD a 0 < 4 →
          ([0,1,5,5] : List Nat).getD a 0 ≠ ([0,1,5,5] : List Nat).getD b 0) →
        decode (2*4+2) 4 8 [1,0,0,0, 0,1,0,0, 0,0,1,0, 0,0,0,1,
          119,64,56,14, 199,167,13,108, 83,2,111,63, 241,123,131,8]
          [[1],[2],[3],[4]] [0,1,5,5] 1 = .error .singularMatrix) :=
  decode_parity_dup_fails 4 8 [1,0,0,0, 0,1,0,0, 0,0,1,0, 0,0,0,1,
      119,64,56,14, 199,167,13,108, 83,2,111,63, 241,123,131,8]
    [[1],[2],[3],[4]] [0,1,5,5] 1 2 3 5 (by decide) (by decide) (by decide)
    (by decide) (by decide) (by decide) (by decide) (by decide) (by decide)


end Fecpp
